import Mathlib

/-!
Verification of the Plonky3-Fibonacci STARK pipeline against its design
specification.

The repository's visible source is the driver
`src/keccak-air/examples/prove_goldilocks_poseidon_fibonacci.rs`; the core
protocol crates (`p3_uni_stark`, `p3_fri`, `p3_challenger`, `p3_merkle_tree`)
are part of the repository but their sources are not included here, so those
components are modelled from the specification (spec.md sections 4.2 to 4.6),
while everything from the driver (trace generation, configuration values,
`goldilocks_from_ark_ff`) is embedded directly from the Rust source.
-/

set_option maxRecDepth 100000

namespace P3

/-- The Goldilocks prime `2^64 - 2^32 + 1`, the modulus of the `Goldilocks`
field used by the driver (`type Val = Goldilocks`). -/
def GP : ℕ := 18446744069414584321

theorem GP_eq : GP = 2 ^ 64 - 2 ^ 32 + 1 := by decide

/-- The Goldilocks field as residues modulo `GP`. -/
abbrev F : Type := ZMod GP

instance : NeZero GP := ⟨by decide⟩

/-- Fuel-bounded fast modular exponentiation (square and multiply).  Structural
recursion on the fuel so that the kernel can evaluate it on concrete inputs. -/
def powModAux (n : ℕ) : ℕ → ℕ → ℕ → ℕ
  | 0, _, _ => 1 % n
  | fuel + 1, a, b =>
    if b = 0 then 1 % n
    else
      let h := powModAux n fuel (a * a % n) (b / 2)
      if b % 2 = 1 then h * a % n else h

/-- `powMod a b n = a ^ b % n`, for exponents below `2 ^ 64`. -/
def powMod (a b n : ℕ) : ℕ := powModAux n 64 a b

theorem powModAux_correct (n : ℕ) (hn : 1 < n) :
    ∀ (fuel a b : ℕ), b < 2 ^ fuel → powModAux n fuel a b = a ^ b % n := by
  intro fuel
  induction fuel with
  | zero =>
    intro a b hb
    interval_cases b
    simp [powModAux, Nat.mod_eq_of_lt hn]
  | succ f ih =>
    intro a b hb
    by_cases hb0 : b = 0
    · simp [powModAux, hb0, Nat.mod_eq_of_lt hn]
    · have hhalf : b / 2 < 2 ^ f := by
        have : b < 2 ^ f * 2 := by
          simpa [Nat.pow_succ] using hb
        omega
      have hrec := ih (a * a % n) (b / 2) hhalf
      have hsq : (a * a % n) ^ (b / 2) % n = (a * a) ^ (b / 2) % n := by
        simpa using (Nat.pow_mod (a * a) (b / 2) n).symm
      have hmain : (a * a) ^ (b / 2) = a ^ (2 * (b / 2)) := by
        rw [two_mul, pow_add, ← mul_pow]
      rcases Nat.even_or_odd b with he | ho
      · have hb2 : b % 2 = 0 := Nat.even_iff.mp he
        have hbeq : 2 * (b / 2) = b := by omega
        simp only [powModAux, hb0, if_false, hb2]
        rw [hrec, hsq, hmain, hbeq]
        simp
      · have hb2 : b % 2 = 1 := Nat.odd_iff.mp ho
        have hbeq : 2 * (b / 2) + 1 = b := by omega
        simp only [powModAux, hb0, if_false, hb2, if_true]
        rw [hrec, hsq, hmain]
        rw [Nat.mod_mul_mod]
        rw [← pow_succ]
        rw [hbeq]

theorem powMod_correct (a b n : ℕ) (hn : 1 < n) (hb : b < 2 ^ 64) :
    powMod a b n = a ^ b % n :=
  powModAux_correct n hn 64 a b hb

theorem powMod_lt (a b n : ℕ) (hn : 1 < n) (hb : b < 2 ^ 64) :
    powMod a b n < n := by
  rw [powMod_correct a b n hn hb]
  exact Nat.mod_lt _ (by omega)

/-- Bridge from the executable `powMod` to powers in the Goldilocks field. -/
theorem pow_cast_eq_powMod (a b : ℕ) (hb : b < 2 ^ 64) :
    ((a : F) ^ b : F) = ((powMod a b GP : ℕ) : F) := by
  rw [powMod_correct a b GP (by decide) hb, ZMod.natCast_mod, Nat.cast_pow]

theorem natCast_F_eq_one_iff (m : ℕ) (hm : m < GP) : ((m : ℕ) : F) = 1 ↔ m = 1 := by
  constructor
  · intro h
    have h2 : ((m : ℕ) : F) = ((1 : ℕ) : F) := by simpa using h
    have h3 := (ZMod.natCast_eq_natCast_iff m 1 GP).mp h2
    have h4 : m % GP = 1 % GP := h3
    rw [Nat.mod_eq_of_lt hm, Nat.mod_eq_of_lt (by decide)] at h4
    exact h4
  · intro h; simp [h]

theorem pow7_eq_one_iff (b : ℕ) (hb : b < 2 ^ 64) :
    ((7 : F) ^ b = 1) ↔ powMod 7 b GP = 1 := by
  have h7 : ((7 : ℕ) : F) = (7 : F) := by norm_num
  rw [← h7, pow_cast_eq_powMod 7 b hb]
  exact natCast_F_eq_one_iff _ (powMod_lt 7 b GP (by decide) hb)

/-- Every prime divisor of `GP - 1 = 2^32 * 3 * 5 * 17 * 257 * 65537` is one of
the six listed primes. -/
theorem prime_divisors_GP_sub_one (q : ℕ) (hq : q.Prime) (hdvd : q ∣ GP - 1) :
    q = 2 ∨ q = 3 ∨ q = 5 ∨ q = 17 ∨ q = 257 ∨ q = 65537 := by
  have hfact : GP - 1 = 2 ^ 32 * (3 * (5 * (17 * (257 * 65537)))) := by decide
  rw [hfact] at hdvd
  have hp2 : Nat.Prime 2 := by norm_num
  have hp3 : Nat.Prime 3 := by norm_num
  have hp5 : Nat.Prime 5 := by norm_num
  have hp17 : Nat.Prime 17 := by norm_num
  have hp257 : Nat.Prime 257 := by norm_num
  have hp65537 : Nat.Prime 65537 := by norm_num
  rcases (Nat.Prime.dvd_mul hq).mp hdvd with h | h
  · exact Or.inl ((Nat.prime_dvd_prime_iff_eq hq hp2).mp (hq.dvd_of_dvd_pow h))
  rcases (Nat.Prime.dvd_mul hq).mp h with h | h
  · exact Or.inr (Or.inl ((Nat.prime_dvd_prime_iff_eq hq hp3).mp h))
  rcases (Nat.Prime.dvd_mul hq).mp h with h | h
  · exact Or.inr (Or.inr (Or.inl ((Nat.prime_dvd_prime_iff_eq hq hp5).mp h)))
  rcases (Nat.Prime.dvd_mul hq).mp h with h | h
  · exact Or.inr (Or.inr (Or.inr (Or.inl ((Nat.prime_dvd_prime_iff_eq hq hp17).mp h))))
  rcases (Nat.Prime.dvd_mul hq).mp h with h | h
  · exact Or.inr (Or.inr (Or.inr (Or.inr (Or.inl
      ((Nat.prime_dvd_prime_iff_eq hq hp257).mp h)))))
  · exact Or.inr (Or.inr (Or.inr (Or.inr (Or.inr
      ((Nat.prime_dvd_prime_iff_eq hq hp65537).mp h)))))

theorem seven_pow_GP_sub_one : (7 : F) ^ (GP - 1) = 1 := by
  rw [pow7_eq_one_iff (GP - 1) (by decide)]
  decide

theorem seven_pow_div_ne_one (q : ℕ) (hq : q.Prime) (hdvd : q ∣ GP - 1) :
    (7 : F) ^ ((GP - 1) / q) ≠ 1 := by
  rcases prime_divisors_GP_sub_one q hq hdvd with h | h | h | h | h | h <;>
    subst h <;> rw [ne_eq, pow7_eq_one_iff _ (by decide)] <;> decide

/-- `2^64 - 2^32 + 1` is prime (Lucas certificate with witness 7). -/
theorem GP_prime : Nat.Prime GP :=
  lucas_primality GP 7 seven_pow_GP_sub_one seven_pow_div_ne_one

instance : Fact (Nat.Prime GP) := ⟨GP_prime⟩

/-- 7 generates the multiplicative group of the Goldilocks field. -/
theorem orderOf_seven : orderOf (7 : F) = GP - 1 :=
  orderOf_eq_of_pow_and_pow_div_prime (by decide) seven_pow_GP_sub_one seven_pow_div_ne_one

/-- The canonical `2^k`-th root of unity of the Goldilocks field,
`7 ^ ((GP - 1) / 2^k)`, computed executably. -/
def root2 (k : ℕ) : F := ((powMod 7 ((GP - 1) / 2 ^ k) GP : ℕ) : F)

theorem root2_spec (k : ℕ) : root2 k = (7 : F) ^ ((GP - 1) / 2 ^ k) := by
  have hb : (GP - 1) / 2 ^ k < 2 ^ 64 :=
    lt_of_le_of_lt (Nat.div_le_self _ _) (by decide)
  have h7 : ((7 : ℕ) : F) = (7 : F) := by norm_num
  rw [root2, ← h7, pow_cast_eq_powMod 7 _ hb]

theorem two_pow_dvd_GP_sub_one (k : ℕ) (hk : k ≤ 32) : 2 ^ k ∣ GP - 1 := by
  have h32 : (2 : ℕ) ^ 32 ∣ GP - 1 := by decide
  exact dvd_trans (pow_dvd_pow 2 hk) h32

theorem orderOf_root2 (k : ℕ) (hk : k ≤ 32) : orderOf (root2 k) = 2 ^ k := by
  have hpos : 0 < (GP - 1) / 2 ^ k :=
    Nat.div_pos (Nat.le_of_dvd (by decide) (two_pow_dvd_GP_sub_one k hk)) (by positivity)
  rw [root2_spec, orderOf_pow' _ (Nat.pos_iff_ne_zero.mp hpos), orderOf_seven]
  have hdvd : (GP - 1) / 2 ^ k ∣ GP - 1 := Nat.div_dvd_of_dvd (two_pow_dvd_GP_sub_one k hk)
  rw [Nat.gcd_eq_right hdvd]
  exact Nat.div_div_self (two_pow_dvd_GP_sub_one k hk) (by decide)

theorem root2_pow_two_pow (k : ℕ) (hk : k ≤ 32) : root2 k ^ 2 ^ k = 1 := by
  rw [← orderOf_root2 k hk]
  exact pow_orderOf_eq_one _

theorem root2_ne_zero (k : ℕ) (hk : k ≤ 32) : root2 k ≠ 0 := by
  intro h
  have := root2_pow_two_pow k hk
  rw [h, zero_pow (by positivity)] at this
  exact zero_ne_one this

theorem root2_sq (k : ℕ) (hk : k + 1 ≤ 32) : root2 (k + 1) * root2 (k + 1) = root2 k := by
  rw [root2_spec, root2_spec, ← pow_add]
  congr 1
  have hdvd : 2 ^ (k + 1) ∣ GP - 1 := two_pow_dvd_GP_sub_one (k + 1) hk
  obtain ⟨c, hc⟩ := hdvd
  have h2 : (2 : ℕ) ^ (k + 1) = 2 ^ k * 2 := by ring
  rw [hc, h2, Nat.mul_div_cancel_left c (by positivity), Nat.mul_assoc,
    Nat.mul_div_cancel_left (2 * c) (by positivity)]
  omega

theorem three_dvd_GP_sub_one : (3 : ℕ) ∣ GP - 1 := by decide

/-- No element of the coset `7 * <root2 m>` is a `2^k`-th root of unity: the
Goldilocks multiplicative group has an order-3 component, while the coset
representative 7 is a generator. -/
theorem coset_pow_ne_one (m k j : ℕ) (hm : m ≤ 32) :
    ((7 : F) * root2 m ^ j) ^ 2 ^ k ≠ 1 := by
  intro h
  have hexp : ((7 : F) * root2 m ^ j) ^ (2 ^ k * 2 ^ m) = 1 := by
    rw [pow_mul, h, one_pow]
  rw [mul_pow, ← pow_mul] at hexp
  have hroot : root2 m ^ (j * (2 ^ k * 2 ^ m)) = 1 := by
    have : j * (2 ^ k * 2 ^ m) = 2 ^ m * (j * 2 ^ k) := by ring
    rw [this, pow_mul, root2_pow_two_pow m hm, one_pow]
  rw [hroot, mul_one] at hexp
  have hdvd : orderOf (7 : F) ∣ 2 ^ k * 2 ^ m := orderOf_dvd_of_pow_eq_one hexp
  rw [orderOf_seven] at hdvd
  have h3 : (3 : ℕ) ∣ 2 ^ k * 2 ^ m := dvd_trans three_dvd_GP_sub_one hdvd
  rw [← pow_add] at h3
  have := Nat.Prime.dvd_of_dvd_pow (p := 3) (by norm_num) h3
  omega

theorem root2_pow_injOn (k : ℕ) (hk : k ≤ 32) (i j : ℕ) (hi : i < 2 ^ k)
    (hj : j < 2 ^ k) (hij : root2 k ^ i = root2 k ^ j) : i = j := by
  have horder := orderOf_root2 k hk
  have := pow_injOn_Iio_orderOf (x := root2 k)
    (by rw [horder]; exact Set.mem_Iio.mpr hi)
    (by rw [horder]; exact Set.mem_Iio.mpr hj) hij
  exact this

/-! ## The driver (`src/keccak-air/examples/prove_goldilocks_poseidon_fibonacci.rs`) -/

/-- `Goldilocks::from_canonical_u64` on a canonical value: the field element of
that integer value. -/
def from_canonical_u64 (x : ℕ) : F := (x : F)

/-- `Goldilocks::from_wrapped_u64`: reduces an arbitrary `u64` modulo `GP`. -/
def from_wrapped_u64 (x : ℕ) : F := (x : F)

/-- `BigInt::<1>::to_bytes_le` of a 64-bit limb: the `n` little-endian bytes of
`x` (the Rust call produces `n = 8`). -/
def bytes_le : ℕ → ℕ → List ℕ
  | 0, _ => []
  | n + 1, x => x % 256 :: bytes_le n (x / 256)

/-- `Vec::resize(8, 0)`: truncate to 8 elements or pad with zeros. -/
def resize8 (l : List ℕ) : List ℕ := l.take 8 ++ List.replicate (8 - l.length) 0

/-- `u64::from_le_bytes`. -/
def u64_from_le_bytes (bs : List ℕ) : ℕ := bs.foldr (fun b acc => b + 256 * acc) 0

/-- `goldilocks_from_ark_ff` from the driver, lines 27-33: serialize the
ark-ff Goldilocks element (a canonical residue, here its integer value `x`) to
little-endian bytes, resize to 8 bytes, reassemble a `u64`, and reduce with
`from_wrapped_u64`. -/
def goldilocks_from_ark_ff (x : ℕ) : F :=
  from_wrapped_u64 (u64_from_le_bytes (resize8 (bytes_le 8 x)))

theorem bytes_le_length (n x : ℕ) : (bytes_le n x).length = n := by
  induction n generalizing x with
  | zero => rfl
  | succ m ih => simp [bytes_le, ih]

theorem u64_from_le_bytes_bytes_le (n x : ℕ) :
    u64_from_le_bytes (bytes_le n x) = x % 2 ^ (8 * n) := by
  induction n generalizing x with
  | zero => simp [bytes_le, u64_from_le_bytes, Nat.mod_one]
  | succ m ih =>
    have hsplit : (2 : ℕ) ^ (8 * (m + 1)) = 256 * 2 ^ (8 * m) := by
      rw [Nat.mul_succ, pow_add]
      ring
    rw [hsplit, Nat.mod_mul]
    simp only [bytes_le, u64_from_le_bytes, List.foldr_cons]
    rw [show (bytes_le m (x / 256)).foldr (fun b acc => b + 256 * acc) 0
        = u64_from_le_bytes (bytes_le m (x / 256)) from rfl, ih]

/-! ## The Fibonacci trace built in `main` (driver lines 74-91) -/

def NUM_FIBONACCI_ROWS : ℕ := 64

/-- Modelled from the spec: `NUM_FIBONACCI_COLS` is exported by the
`p3_keccak_air` crate of this repository, whose source is not included; the
driver pushes 3-entry rows, so the column count is 3. -/
def NUM_FIBONACCI_COLS : ℕ := 3

/-- One iteration of the `for i in 1..NUM_FIBONACCI_ROWS` body: the next row is
`[prev[1], prev[2], prev[1] + prev[2]]`. -/
def nextFibRow (r : List ℕ) : List ℕ :=
  [r.getD 1 0, r.getD 2 0, r.getD 1 0 + r.getD 2 0]

/-- The `values` vector after `n` iterations of the loop (so `n + 1` rows),
seeded with `[1, 1, 2]`. -/
def fibValues : ℕ → List (List ℕ)
  | 0 => [[1, 1, 2]]
  | n + 1 => fibValues n ++ [nextFibRow ((fibValues n).getLastD [])]

/-- The 64 rows of `values` at the end of the loop. -/
def fibTraceRows : List (List ℕ) := fibValues (NUM_FIBONACCI_ROWS - 1)

/-- The field-valued rows of the driver's trace. -/
def fibTraceRowsF : List (List F) := fibTraceRows.map (List.map from_canonical_u64)

/-- `RowMajorMatrix` (row-major dense matrix) as built by the driver. -/
structure RowMajorMatrix where
  values : List F
  width : ℕ

def RowMajorMatrix.height (m : RowMajorMatrix) : ℕ := m.values.length / m.width

/-- The `trace` value of driver lines 84-91: fibonacci rows flattened,
converted with `from_canonical_u64`, width `NUM_FIBONACCI_COLS`. -/
def fibTrace : RowMajorMatrix :=
  { values := (fibTraceRows.flatten).map from_canonical_u64
    width := NUM_FIBONACCI_COLS }

theorem resize8_length (l : List ℕ) : (resize8 l).length = 8 := by
  simp only [resize8, List.length_append, List.length_take, List.length_replicate]
  omega

/-- **C10.** `goldilocks_from_ark_ff` is total and value-preserving: for every
canonical ark-ff Goldilocks value `x < GP`, the little-endian byte buffer after
`resize` has length exactly 8 (so the slice-to-array conversion succeeds), and
the result is the Goldilocks element of the same residue `x` modulo
`2^64 - 2^32 + 1`. -/
theorem goldilocks_from_ark_ff_total_value_preserving (x : ℕ) (hx : x < GP) :
    (resize8 (bytes_le 8 x)).length = 8 ∧
    goldilocks_from_ark_ff x = (x : F) ∧
    (goldilocks_from_ark_ff x).val = x := by
  have hlen : (bytes_le 8 x).length = 8 := bytes_le_length 8 x
  have hres : resize8 (bytes_le 8 x) = bytes_le 8 x := by
    simp [resize8, hlen, List.take_of_length_le (le_of_eq hlen)]
  have hval : goldilocks_from_ark_ff x = (x : F) := by
    rw [goldilocks_from_ark_ff, hres, u64_from_le_bytes_bytes_le, from_wrapped_u64]
    congr 1
    have hx64 : x < 2 ^ (8 * 8) := lt_trans hx (by decide)
    exact Nat.mod_eq_of_lt hx64
  exact ⟨resize8_length _, hval, by rw [hval]; exact ZMod.val_cast_of_lt hx⟩

/-- Witness for C10 at the largest canonical value `GP - 1`. -/
theorem goldilocks_from_ark_ff_total_value_preserving_witness :
    (resize8 (bytes_le 8 (GP - 1))).length = 8 ∧
    goldilocks_from_ark_ff (GP - 1) = ((GP - 1 : ℕ) : F) ∧
    (goldilocks_from_ark_ff (GP - 1)).val = GP - 1 :=
  goldilocks_from_ark_ff_total_value_preserving (GP - 1) (by decide)

/-- **C8.** Exact trace arithmetic in the driver: the `i`-th generated row is
`[fib (i+1), fib (i+2), fib (i+3)]` (with `fib 1 = fib 2 = 1`); every entry is
below `2^64` (so every `u64` addition of the loop is overflow-free, the largest
entry being `fib 66 = 27777890035288`) and below the Goldilocks modulus, so
`from_canonical_u64` maps it to the field element of the same integer value. -/
theorem fibonacci_trace_exact (i : ℕ) (hi : i < 64) :
    fibTraceRows.getD i [] = [Nat.fib (i + 1), Nat.fib (i + 2), Nat.fib (i + 3)] ∧
    (∀ x ∈ fibTraceRows.getD i [], x < 2 ^ 64 ∧ x < GP ∧ (from_canonical_u64 x).val = x) ∧
    Nat.fib 66 = 27777890035288 := by
  have hval : ∀ x : ℕ, x < GP → (from_canonical_u64 x).val = x := fun x hx =>
    ZMod.val_cast_of_lt hx
  have hrows : ∀ j, j < 64 →
      fibTraceRows.getD j [] = [Nat.fib (j + 1), Nat.fib (j + 2), Nat.fib (j + 3)] := by
    decide
  have hbound : ∀ j, j < 64 → ∀ x ∈ fibTraceRows.getD j [], x < GP := by
    decide
  refine ⟨hrows i hi, fun x hx => ?_, by decide⟩
  have h1 : x < GP := hbound i hi x hx
  exact ⟨lt_trans h1 (by decide), h1, hval x h1⟩

/-- Witness for C8 at the last row `i = 63`, which contains `fib 66`. -/
theorem fibonacci_trace_exact_witness :
    fibTraceRows.getD 63 [] = [Nat.fib 64, Nat.fib 65, Nat.fib 66] ∧
    (∀ x ∈ fibTraceRows.getD 63 [], x < 2 ^ 64 ∧ x < GP ∧ (from_canonical_u64 x).val = x) ∧
    Nat.fib 66 = 27777890035288 :=
  fibonacci_trace_exact 63 (by decide)

/-! ## Challenger (Fiat-Shamir transcript)

Modelled from the spec (2., 3. "Challenger State", 4.4, 4.5): a duplex sponge
over a permutation of width 8 (`DuplexChallenger<Val, Perm, 8>` in the driver),
supporting `observe` (absorb) and `sample` (squeeze).  The permutation itself
is an external collaborator (spec 6.), passed as a parameter. -/

/-- An abstract width-8 permutation of field-element states. -/
def Permutation : Type := List F → List F

/-- Transcript state: sponge state plus input and output buffers. -/
structure DuplexChallenger where
  spongeState : List F
  inputBuffer : List F
  outputBuffer : List F
deriving DecidableEq

/-- Fresh transcript: all-zero sponge state, empty buffers. -/
def newChallenger : DuplexChallenger :=
  { spongeState := List.replicate 8 0, inputBuffer := [], outputBuffer := [] }

/-- Overwrite the leading lanes of the state with the buffered inputs. -/
def overwriteLanes : List F → List F → List F
  | st, [] => st
  | [], _ => []
  | _ :: st, b :: bs => b :: overwriteLanes st bs

/-- Run the duplex step: feed the input buffer into the state, permute, refill
the output buffer from the new state. -/
def duplexing (perm : Permutation) (c : DuplexChallenger) : DuplexChallenger :=
  let st := perm (overwriteLanes c.spongeState c.inputBuffer)
  { spongeState := st, inputBuffer := [], outputBuffer := st }

/-- Absorb one field element: clear the output buffer, enqueue the element,
duplex when the rate (8) is reached. -/
def observe (perm : Permutation) (c : DuplexChallenger) (x : F) : DuplexChallenger :=
  let c2 : DuplexChallenger :=
    { c with outputBuffer := [], inputBuffer := c.inputBuffer ++ [x] }
  if c2.inputBuffer.length = 8 then duplexing perm c2 else c2

/-- Absorb a list of field elements in order. -/
def observeList (perm : Permutation) (c : DuplexChallenger) (xs : List F) :
    DuplexChallenger :=
  xs.foldl (observe perm) c

/-- Squeeze one field element: duplex if there are pending inputs or no
buffered outputs, then pop the first buffered output. -/
def sample (perm : Permutation) (c : DuplexChallenger) : F × DuplexChallenger :=
  let c2 :=
    if c.inputBuffer ≠ [] ∨ c.outputBuffer = [] then duplexing perm c else c
  match c2.outputBuffer with
  | [] => (0, c2)
  | y :: rest => (y, { c2 with outputBuffer := rest })

/-- Squeeze `n` field elements in order. -/
def sampleN (perm : Permutation) : ℕ → DuplexChallenger → List F × DuplexChallenger
  | 0, c => ([], c)
  | n + 1, c =>
    let p := sample perm c
    let q := sampleN perm n p.2
    (p.1 :: q.1, q.2)

/-- **C4.** Transcript determinism: squeeze outputs are a pure function of the
initial state and the sequence of prior absorbs.  Two challenger runs that
start from equal initial states and absorb equal sequences produce equal
squeeze outputs -- there is no dependence on external randomness or hidden
entropy. -/
theorem transcript_deterministic (perm : Permutation)
    (init1 init2 : DuplexChallenger) (seq1 seq2 : List F) (n : ℕ)
    (hinit : init1 = init2) (hseq : seq1 = seq2) :
    (sampleN perm n (observeList perm init1 seq1)).1 =
      (sampleN perm n (observeList perm init2 seq2)).1 := by
  subst hinit; subst hseq; rfl

/-- A concrete width-8 permutation used to instantiate witnesses (the driver's
Poseidon instance is an external collaborator; any permutation works). -/
def demoPerm : Permutation := fun st =>
  match st with
  | [] => []
  | x :: rest => rest ++ [x * x * x + x + 1]

/-- Witness for C4: a concrete replayed transcript with the demo permutation. -/
theorem transcript_deterministic_witness :
    (sampleN demoPerm 2 (observeList demoPerm newChallenger [1, 2, 3])).1 =
      (sampleN demoPerm 2 (observeList demoPerm newChallenger [1, 2, 3])).1 :=
  transcript_deterministic demoPerm newChallenger newChallenger [1, 2, 3] [1, 2, 3] 2
    rfl rfl

/-! ## Hashing, compression and the Merkle vector commitment

Modelled from the spec (4.2 "Commitment Scheme"): rows are hashed by a
padding-free sponge (`PaddingFreeSponge<Perm, 8, 4, 4>`), internal nodes use a
2-to-1 truncated-permutation compression (`TruncatedPermutation<Perm, 2, 4, 8>`),
digests are 4 field elements, and a commitment to `2^d` rows is the root of the
perfect binary Merkle tree over the row hashes. -/

/-- Padding-free sponge absorption: feed rate-4 chunks through the permutation. -/
def absorbChunks (perm : Permutation) : List F → List F → List F
  | st, [] => st
  | st, x1 :: x2 :: x3 :: x4 :: rest =>
    absorbChunks perm (perm (overwriteLanes st [x1, x2, x3, x4])) rest
  | st, xs => perm (overwriteLanes st xs)

/-- Hash one row of field elements to a 4-element digest. -/
def hashRow (perm : Permutation) (xs : List F) : List F :=
  (absorbChunks perm (List.replicate 8 0) xs).take 4

/-- 2-to-1 digest compression: permute the concatenation, truncate to 4. -/
def compress (perm : Permutation) (a b : List F) : List F :=
  (perm (a ++ b)).take 4

/-- Root of the Merkle tree of depth `d` over a list of `2^d` rows. -/
def merkleRoot (perm : Permutation) : ℕ → List (List F) → List F
  | 0, rows => hashRow perm (rows.headD [])
  | d + 1, rows =>
    compress perm (merkleRoot perm d (rows.take (2 ^ d)))
      (merkleRoot perm d (rows.drop (2 ^ d)))

/-- Sibling-digest path (leaf-to-root order) for the row at index `i`. -/
def merklePath (perm : Permutation) : ℕ → List (List F) → ℕ → List (List F)
  | 0, _, _ => []
  | d + 1, rows, i =>
    if i < 2 ^ d then
      merklePath perm d (rows.take (2 ^ d)) i ++ [merkleRoot perm d (rows.drop (2 ^ d))]
    else
      merklePath perm d (rows.drop (2 ^ d)) (i - 2 ^ d) ++
        [merkleRoot perm d (rows.take (2 ^ d))]

/-- Recompute the root from a leaf digest and a sibling path, consuming the
index bits least-significant first. -/
def verifyChain (perm : Permutation) : List F → ℕ → List (List F) → List F
  | h, _, [] => h
  | h, i, s :: path =>
    verifyChain perm (if i % 2 = 0 then compress perm h s else compress perm s h)
      (i / 2) path

/-- The commitment scheme's opening check: recompute the hash chain from the
claimed row along the sibling path and compare with the committed root
(spec 4.2 `verify`). -/
def merkleVerify (perm : Permutation) (root : List F) (i : ℕ) (row : List F)
    (path : List (List F)) : Bool :=
  decide (verifyChain perm (hashRow perm row) i path = root)

/-- Typed failure of the commitment opening verifier (spec 7.). -/
inductive MmcsError
  | invalidOpeningShape
deriving DecidableEq

/-- Shape-checked opening verification: openings whose row width, path length
or index do not match the committed shape fail with `InvalidOpeningShape`;
well-shaped openings yield the pure predicate. -/
def mmcsVerifyOpening (perm : Permutation) (width depth : ℕ) (root : List F)
    (i : ℕ) (row : List F) (path : List (List F)) : Except MmcsError Bool :=
  if row.length = width ∧ path.length = depth ∧ i < 2 ^ depth then
    Except.ok (merkleVerify perm root i row path)
  else
    Except.error MmcsError.invalidOpeningShape

theorem merklePath_length (perm : Permutation) :
    ∀ (d : ℕ) (rows : List (List F)) (i : ℕ), (merklePath perm d rows i).length = d := by
  intro d
  induction d with
  | zero => intro rows i; rfl
  | succ d ih =>
    intro rows i
    by_cases h : i < 2 ^ d <;> simp [merklePath, h, ih]

theorem verifyChain_append (perm : Permutation) (p q : List (List F)) :
    ∀ (h : List F) (i : ℕ),
      verifyChain perm h i (p ++ q) =
        verifyChain perm (verifyChain perm h i p) (i / 2 ^ p.length) q := by
  induction p with
  | nil => intro h i; simp [verifyChain]
  | cons s p ih =>
    intro h i
    have h1 : verifyChain perm h i ((s :: p) ++ q) =
        verifyChain perm (if i % 2 = 0 then compress perm h s else compress perm s h)
          (i / 2) (p ++ q) := rfl
    have h2 : verifyChain perm h i (s :: p) =
        verifyChain perm (if i % 2 = 0 then compress perm h s else compress perm s h)
          (i / 2) p := rfl
    rw [h1, ih, h2]
    congr 1
    rw [Nat.div_div_eq_div_mul, List.length_cons, pow_succ, mul_comm]

theorem verifyChain_congr_mod (perm : Permutation) :
    ∀ (p : List (List F)) (h : List F) (i j : ℕ),
      i % 2 ^ p.length = j % 2 ^ p.length →
      verifyChain perm h i p = verifyChain perm h j p := by
  intro p
  induction p with
  | nil => intro h i j _; rfl
  | cons s p ih =>
    intro h i j hmod
    simp only [List.length_cons] at hmod
    have hi : i % (2 * 2 ^ p.length) = i % 2 + 2 * (i / 2 % 2 ^ p.length) := Nat.mod_mul
    have hj : j % (2 * 2 ^ p.length) = j % 2 + 2 * (j / 2 % 2 ^ p.length) := Nat.mod_mul
    rw [pow_succ, mul_comm (2 ^ p.length) 2] at hmod
    rw [hi, hj] at hmod
    have hi2 : i % 2 < 2 := Nat.mod_lt _ (by norm_num)
    have hj2 : j % 2 < 2 := Nat.mod_lt _ (by norm_num)
    have heq1 : i % 2 = j % 2 := by omega
    have heq2 : i / 2 % 2 ^ p.length = j / 2 % 2 ^ p.length := by omega
    simp only [verifyChain, heq1]
    exact ih _ (i / 2) (j / 2) heq2

/-- Honest openings verify: for a tree over `2^d` rows, the path produced for
any index recomputes the committed root. -/
theorem merkle_open_correct (perm : Permutation) :
    ∀ (d : ℕ) (rows : List (List F)) (i : ℕ),
      rows.length = 2 ^ d → i < 2 ^ d →
      verifyChain perm (hashRow perm (rows.getD i [])) i (merklePath perm d rows i) =
        merkleRoot perm d rows := by
  intro d
  induction d with
  | zero =>
    intro rows i hlen hi
    interval_cases i
    match rows, hlen with
    | [r], _ => rfl
  | succ d ih =>
    intro rows i hlen hi
    have hlen' : (2 : ℕ) ^ (d + 1) = 2 ^ d + 2 ^ d := by rw [pow_succ]; ring
    have htake : (rows.take (2 ^ d)).length = 2 ^ d := by
      rw [List.length_take, hlen]; omega
    have hdrop : (rows.drop (2 ^ d)).length = 2 ^ d := by
      rw [List.length_drop, hlen]; omega
    by_cases hcase : i < 2 ^ d
    · have hgd : (rows.take (2 ^ d)).getD i [] = rows.getD i [] := by
        rw [List.getD_eq_getElem?_getD, List.getD_eq_getElem?_getD,
          List.getElem?_take]
        simp [hcase]
      simp only [merklePath, hcase, if_true, merkleRoot]
      rw [verifyChain_append, merklePath_length, ← hgd,
        ih (rows.take (2 ^ d)) i htake hcase]
      have hdiv : i / 2 ^ d = 0 := Nat.div_eq_of_lt hcase
      simp [verifyChain, hdiv]
    · have hi' : i - 2 ^ d < 2 ^ d := by omega
      have hgd : (rows.drop (2 ^ d)).getD (i - 2 ^ d) [] = rows.getD i [] := by
        rw [List.getD_eq_getElem?_getD, List.getD_eq_getElem?_getD,
          List.getElem?_drop]
        congr 2
        omega
      simp only [merklePath, hcase, if_false, merkleRoot]
      rw [verifyChain_append, merklePath_length]
      have hchain :
          verifyChain perm (hashRow perm (rows.getD i [])) i
              (merklePath perm d (rows.drop (2 ^ d)) (i - 2 ^ d)) =
            verifyChain perm (hashRow perm (rows.getD i [])) (i - 2 ^ d)
              (merklePath perm d (rows.drop (2 ^ d)) (i - 2 ^ d)) := by
        apply verifyChain_congr_mod
        rw [merklePath_length]
        conv_lhs => rw [show i = i - 2 ^ d + 2 ^ d by omega]
        rw [Nat.add_mod_right]
      rw [hchain, ← hgd, ih (rows.drop (2 ^ d)) (i - 2 ^ d) hdrop hi']
      have hdiv : i / 2 ^ d = 1 := by
        rw [Nat.div_eq_sub_div (by positivity) (by omega), Nat.div_eq_of_lt hi']
      simp [verifyChain, hdiv]

/-- **C5.** Commitment opening verification is total on well-typed input: on
any hash-chain mismatch the well-shaped check returns `false` as a value (a
pure predicate, not an exception), and malformed-shape input is reported with
the typed `InvalidOpeningShape` failure; being a total Lean function, the
verifier can never panic. -/
theorem mmcs_verify_total_on_mismatch (perm : Permutation) (width depth : ℕ)
    (root : List F) (i : ℕ) (row : List F) (path : List (List F))
    (hmismatch : verifyChain perm (hashRow perm row) i path ≠ root) :
    mmcsVerifyOpening perm width depth root i row path =
      (if row.length = width ∧ path.length = depth ∧ i < 2 ^ depth then
        Except.ok false
      else
        Except.error MmcsError.invalidOpeningShape) := by
  unfold mmcsVerifyOpening merkleVerify
  by_cases h : row.length = width ∧ path.length = depth ∧ i < 2 ^ depth <;>
    simp [h, hmismatch]

/-- Witness for C5: a concrete mismatching opening, checked in both a
well-shaped configuration (value `false`) and a malformed one (typed error). -/
theorem mmcs_verify_total_on_mismatch_witness :
    mmcsVerifyOpening demoPerm 1 0 [1, 2, 3, 4] 0 [5] [] =
      (if ([5] : List F).length = 1 ∧ ([] : List (List F)).length = 0 ∧ 0 < 2 ^ 0 then
        Except.ok false
      else
        Except.error MmcsError.invalidOpeningShape) :=
  mmcs_verify_total_on_mismatch demoPerm 1 0 [1, 2, 3, 4] 0 [5] [] (by decide)

/-! ## Executable polynomials (coefficient lists) over the Goldilocks field

The low-degree extension (spec 4.3) is the coset evaluation of each column's
interpolating polynomial; FRI sends the final polynomial's coefficients
explicitly (spec 4.4.3).  Polynomials are coefficient lists (index =
exponent), with a bridge `toPoly` into Mathlib's `Polynomial F` used only in
proofs. -/

/-- Fuel-bounded fast exponentiation in the field. -/
def powFAux : ℕ → F → ℕ → F
  | 0, _, _ => 1
  | fuel + 1, a, b =>
    if b = 0 then 1
    else
      let h := powFAux fuel (a * a) (b / 2)
      if b % 2 = 1 then h * a else h

def powF (a : F) (b : ℕ) : F := powFAux 64 a b

theorem powFAux_correct :
    ∀ (fuel : ℕ) (a : F) (b : ℕ), b < 2 ^ fuel → powFAux fuel a b = a ^ b := by
  intro fuel
  induction fuel with
  | zero =>
    intro a b hb
    interval_cases b
    simp [powFAux]
  | succ f ih =>
    intro a b hb
    by_cases hb0 : b = 0
    · simp [powFAux, hb0]
    · have hhalf : b / 2 < 2 ^ f := by
        have : b < 2 ^ f * 2 := by simpa [Nat.pow_succ] using hb
        omega
      have hrec := ih (a * a) (b / 2) hhalf
      have hmain : (a * a) ^ (b / 2) = a ^ (2 * (b / 2)) := by
        rw [two_mul, pow_add, ← mul_pow]
      rcases Nat.even_or_odd b with he | ho
      · have hb2 : b % 2 = 0 := Nat.even_iff.mp he
        have hbeq : 2 * (b / 2) = b := by omega
        simp only [powFAux, hb0, if_false, hb2, if_neg (by norm_num : ¬(0 : ℕ) = 1)]
        rw [hrec, hmain, hbeq]
      · have hb2 : b % 2 = 1 := Nat.odd_iff.mp ho
        have hbeq : 2 * (b / 2) + 1 = b := by omega
        simp only [powFAux, hb0, if_false, hb2, if_true]
        rw [hrec, hmain, ← pow_succ, hbeq]

theorem powF_correct (a : F) (b : ℕ) (hb : b < 2 ^ 64) : powF a b = a ^ b :=
  powFAux_correct 64 a b hb

/-- Executable field inverse `x^(GP-2)` (Fermat). -/
def invF (x : F) : F := powF x (GP - 2)

theorem invF_mul_self (x : F) (hx : x ≠ 0) : x * invF x = 1 := by
  rw [invF, powF_correct x (GP - 2) (by decide)]
  have h1 : x * x ^ (GP - 2) = x ^ (GP - 1) := by
    rw [← pow_succ']
    norm_num [GP]
  rw [h1]
  exact ZMod.pow_card_sub_one_eq_one hx

def polyAdd : List F → List F → List F
  | [], q => q
  | p, [] => p
  | a :: p, b :: q => (a + b) :: polyAdd p q

def polyScale (c : F) (p : List F) : List F := p.map (fun a => c * a)

/-- The linear polynomial `X - c`. -/
def linearFactor (c : F) : List F := [-c, 1]

def polyMul : List F → List F → List F
  | [], _ => []
  | a :: p, q => polyAdd (polyScale a q) ((0 : F) :: polyMul p q)

/-- `∏ (X - c)` over the list `cs`. -/
def prodLin (cs : List F) : List F :=
  cs.foldr (fun c acc => polyMul (linearFactor c) acc) [1]

/-- Horner evaluation. -/
def evalPoly (p : List F) (x : F) : F := p.foldr (fun c acc => c + x * acc) 0

/-- Sum of a list of polynomials. -/
def polySum (l : List (List F)) : List F := l.foldr polyAdd []

/-- Product of a list of field elements. -/
def listProd (l : List F) : F := l.foldr (fun a b => a * b) 1

/-- Lagrange interpolation through `(pts i, vals i)`: the executable form of
"the column's interpolating polynomial" (spec 4.3, 4.5 step 5). -/
def lagrangeInterp (pts vals : List F) : List F :=
  polySum ((List.range pts.length).map fun i =>
    polyScale (vals.getD i 0 *
        invF (listProd ((pts.eraseIdx i).map fun y => pts.getD i 0 - y)))
      (prodLin (pts.eraseIdx i)))

/-- Mathlib bridge. -/
noncomputable def toPoly : List F → Polynomial F
  | [] => 0
  | a :: p => Polynomial.C a + Polynomial.X * toPoly p

theorem toPoly_polyAdd (p q : List F) :
    toPoly (polyAdd p q) = toPoly p + toPoly q := by
  induction p generalizing q with
  | nil => simp [polyAdd, toPoly]
  | cons a p ih =>
    cases q with
    | nil => simp [polyAdd, toPoly]
    | cons b q =>
      simp only [polyAdd, toPoly, ih]
      push_cast [Polynomial.C_add]
      ring

theorem toPoly_polyScale (c : F) (p : List F) :
    toPoly (polyScale c p) = Polynomial.C c * toPoly p := by
  induction p with
  | nil => simp [polyScale, toPoly]
  | cons a p ih =>
    simp only [polyScale, List.map_cons, toPoly] at ih ⊢
    rw [ih, Polynomial.C_mul]
    ring

theorem toPoly_polyMul (p q : List F) :
    toPoly (polyMul p q) = toPoly p * toPoly q := by
  induction p with
  | nil => simp [polyMul, toPoly]
  | cons a p ih =>
    simp only [polyMul, toPoly, toPoly_polyAdd, toPoly_polyScale, ih]
    rw [Polynomial.C_0]
    ring

theorem evalPoly_toPoly (p : List F) (x : F) :
    (toPoly p).eval x = evalPoly p x := by
  induction p with
  | nil => simp [toPoly, evalPoly]
  | cons a p ih =>
    simp only [toPoly, evalPoly, List.foldr_cons, Polynomial.eval_add,
      Polynomial.eval_C, Polynomial.eval_mul, Polynomial.eval_X]
    rw [ih]
    rfl

theorem toPoly_prodLin (cs : List F) :
    toPoly (prodLin cs) = (cs.map fun c => Polynomial.X - Polynomial.C c).prod := by
  induction cs with
  | nil => simp [prodLin, toPoly]
  | cons c cs ih =>
    have ih2 : toPoly (prodLin cs) =
        (cs.map fun c => Polynomial.X - Polynomial.C c).prod := ih
    have hstep : prodLin (c :: cs) = polyMul (linearFactor c) (prodLin cs) := rfl
    have hlin : toPoly (linearFactor c) = Polynomial.X - Polynomial.C c := by
      simp only [linearFactor, toPoly]
      rw [map_neg, Polynomial.C_1]
      ring
    rw [hstep, toPoly_polyMul, ih2, hlin, List.map_cons, List.prod_cons]

theorem toPoly_polySum (l : List (List F)) :
    toPoly (polySum l) = (l.map toPoly).sum := by
  induction l with
  | nil => simp [polySum, toPoly]
  | cons p l ih =>
    have ih2 : toPoly (polySum l) = (l.map toPoly).sum := ih
    have hstep : polySum (p :: l) = polyAdd p (polySum l) := rfl
    rw [hstep, toPoly_polyAdd, ih2, List.map_cons, List.sum_cons]

theorem listProd_eq_prod (l : List F) : listProd l = l.prod := by
  induction l with
  | nil => rfl
  | cons a l ih => simp only [listProd, List.foldr_cons, List.prod_cons] at ih ⊢; rw [ih]

theorem polyAdd_length (p q : List F) :
    (polyAdd p q).length = max p.length q.length := by
  induction p generalizing q with
  | nil => simp [polyAdd]
  | cons a p ih =>
    cases q with
    | nil => simp [polyAdd]
    | cons b q => simp [polyAdd, ih]; omega

theorem polyScale_length (c : F) (p : List F) : (polyScale c p).length = p.length :=
  List.length_map p _

theorem prodLin_length (cs : List F) : (prodLin cs).length = cs.length + 1 := by
  induction cs with
  | nil => rfl
  | cons c cs ih =>
    have hne : prodLin cs ≠ [] := by
      intro h
      rw [h] at ih
      simp at ih
    have hstep : prodLin (c :: cs) = polyMul (linearFactor c) (prodLin cs) := rfl
    rw [hstep]
    obtain ⟨a, q, hq⟩ : ∃ a q, prodLin cs = a :: q := by
      cases hp : prodLin cs with
      | nil => exact absurd hp hne
      | cons a q => exact ⟨a, q, rfl⟩
    have hlen : (polyMul (linearFactor c) (prodLin cs)).length =
        (prodLin cs).length + 1 := by
      rw [hq]
      show (polyAdd (polyScale (-c) (a :: q))
        ((0 : F) :: polyAdd (polyScale 1 (a :: q)) [0])).length = (a :: q).length + 1
      simp only [polyAdd_length, polyScale_length, List.length_cons,
        List.length_singleton, List.length_map, List.length_nil]
      omega
    rw [hlen, ih]
    simp

theorem polySum_length_le (l : List (List F)) (n : ℕ) (h : ∀ p ∈ l, p.length ≤ n) :
    (polySum l).length ≤ n := by
  induction l with
  | nil => simp [polySum]
  | cons p l ih =>
    have hstep : polySum (p :: l) = polyAdd p (polySum l) := rfl
    rw [hstep, polyAdd_length]
    exact max_le (h p (by simp)) (ih fun q hq => h q (by simp [hq]))

theorem lagrangeInterp_length (pts vals : List F) :
    (lagrangeInterp pts vals).length ≤ pts.length := by
  apply polySum_length_le
  intro p hp
  obtain ⟨i, hi, rfl⟩ := List.mem_map.mp hp
  rw [List.mem_range] at hi
  rw [polyScale_length, prodLin_length]
  have := List.length_eraseIdx_add_one (l := pts) (i := i) hi
  omega

theorem degree_toPoly_lt (p : List F) :
    (toPoly p).degree < (p.length : ℕ) := by
  induction p with
  | nil =>
    simp only [toPoly, Polynomial.degree_zero, List.length_nil, Nat.cast_zero]
    exact WithBot.bot_lt_coe 0
  | cons a p ih =>
    have h1 : (toPoly (a :: p)).degree ≤
        max (Polynomial.C a).degree (Polynomial.X * toPoly p).degree :=
      Polynomial.degree_add_le _ _
    have h2 : (Polynomial.C a).degree ≤ 0 := Polynomial.degree_C_le
    have h3 : (Polynomial.X * toPoly p).degree ≤ 1 + (toPoly p).degree := by
      calc (Polynomial.X * toPoly p).degree
        ≤ Polynomial.X.degree + (toPoly p).degree := Polynomial.degree_mul_le _ _
        _ = 1 + (toPoly p).degree := by rw [Polynomial.degree_X]
    have h4 : 1 + (toPoly p).degree < ((p.length + 1 : ℕ) : WithBot ℕ) := by
      rcases hdeg : (toPoly p).degree with _ | d
      · exact WithBot.bot_lt_coe _
      · rw [hdeg] at ih
        have hd : d < p.length := WithBot.coe_lt_coe.mp ih
        exact WithBot.coe_lt_coe.mpr (by omega : 1 + d < p.length + 1)
    have h5 : (Polynomial.C a).degree < ((p.length + 1 : ℕ) : WithBot ℕ) :=
      lt_of_le_of_lt h2 (by exact_mod_cast WithBot.coe_lt_coe.mpr (by omega))
    calc (toPoly (a :: p)).degree
        ≤ max (Polynomial.C a).degree (Polynomial.X * toPoly p).degree := h1
      _ < ((p.length + 1 : ℕ) : WithBot ℕ) := max_lt h5 (lt_of_le_of_lt h3 h4)
      _ = ((a :: p).length : ℕ) := by rw [List.length_cons]

theorem natDegree_toPoly_lt (p : List F) (n : ℕ) (hlen : p.length ≤ n) (hn : 0 < n) :
    (toPoly p).natDegree < n := by
  by_cases h0 : toPoly p = 0
  · rw [h0]
    simpa using hn
  · have hd := degree_toPoly_lt p
    have : (toPoly p).degree < (n : ℕ) :=
      lt_of_lt_of_le hd (by exact_mod_cast WithBot.coe_le_coe.mpr hlen)
    exact (Polynomial.natDegree_lt_iff_degree_lt h0).mpr this

theorem mem_eraseIdx_of_ne (l : List F) (i j : ℕ) (hi : i < l.length) (hij : i ≠ j) :
    l.getD i 0 ∈ l.eraseIdx j := by
  rw [List.getD_eq_getElem l 0 hi]
  exact List.mem_eraseIdx_iff_getElem.mpr ⟨i, hi, hij, rfl⟩

theorem not_mem_eraseIdx_self (l : List F) (hnd : l.Nodup) (i : ℕ) (hi : i < l.length) :
    l.getD i 0 ∉ l.eraseIdx i := by
  rw [List.getD_eq_getElem l 0 hi]
  intro hmem
  obtain ⟨j, hj, hji, hval⟩ := List.mem_eraseIdx_iff_getElem.mp hmem
  exact hji (hnd.getElem_inj_iff.mp hval)

theorem lagDenom_ne_zero (pts : List F) (hnd : pts.Nodup) (i : ℕ) (hi : i < pts.length) :
    listProd ((pts.eraseIdx i).map fun y => pts.getD i 0 - y) ≠ 0 := by
  rw [listProd_eq_prod]
  apply List.prod_ne_zero
  intro h0
  obtain ⟨y, hy, hxy⟩ := List.mem_map.mp h0
  have hyx : pts.getD i 0 = y := by
    have := sub_eq_zero.mp hxy
    exact this
  exact not_mem_eraseIdx_self pts hnd i hi (hyx ▸ hy)

theorem eval_list_sum_F (l : List (Polynomial F)) (x : F) :
    l.sum.eval x = (l.map fun p => p.eval x).sum := by
  induction l with
  | nil => simp
  | cons p l ih => simp [ih]

theorem eval_list_prod_F (l : List (Polynomial F)) (x : F) :
    l.prod.eval x = (l.map fun p => p.eval x).prod := by
  induction l with
  | nil => simp
  | cons p l ih => simp [ih]


theorem eval_toPoly_scaled_prodLin (cs : List F) (x c : F) :
    (toPoly (polyScale c (prodLin cs))).eval x = c * (cs.map fun y => x - y).prod := by
  rw [toPoly_polyScale, Polynomial.eval_mul, Polynomial.eval_C, toPoly_prodLin,
    eval_list_prod_F, List.map_map]
  congr 1
  refine congrArg List.prod (List.map_congr_left fun y _ => ?_)
  simp

theorem listsum_range_single (n : ℕ) (g : ℕ → F) (i : ℕ) (hi : i < n)
    (hzero : ∀ j, j < n → j ≠ i → g j = 0) :
    ((List.range n).map g).sum = g i := by
  have hconv : ((List.range n).map g).sum = ∑ j ∈ Finset.range n, g j := rfl
  rw [hconv]
  exact Finset.sum_eq_single_of_mem i (Finset.mem_range.mpr hi) fun j hj hji =>
    hzero j (Finset.mem_range.mp hj) hji

section InterpolationProofs

attribute [local irreducible] invF powF powFAux

/-- The interpolating polynomial agrees with the prescribed values at each
interpolation node. -/
theorem evalPoly_lagrangeInterp_node (pts vals : List F) (hnd : pts.Nodup) (i : ℕ)
    (hi : i < pts.length) :
    evalPoly (lagrangeInterp pts vals) (pts.getD i 0) = vals.getD i 0 := by
  have h1 : (toPoly (lagrangeInterp pts vals)).eval (pts.getD i 0) =
      ((List.range pts.length).map fun j =>
        (vals.getD j 0 * invF (listProd ((pts.eraseIdx j).map fun y => pts.getD j 0 - y))) *
          ((pts.eraseIdx j).map fun y => pts.getD i 0 - y).prod).sum := by
    unfold lagrangeInterp
    rw [toPoly_polySum, List.map_map, eval_list_sum_F, List.map_map]
    congr 1
    apply List.map_congr_left
    intro j _
    exact eval_toPoly_scaled_prodLin (pts.eraseIdx j) (pts.getD i 0) _
  rw [← evalPoly_toPoly, h1]
  rw [listsum_range_single pts.length _ i hi ?hz]
  case hz =>
    intro j hj hji
    have hmem : pts.getD i 0 ∈ pts.eraseIdx j := mem_eraseIdx_of_ne pts i j hi (Ne.symm hji)
    have hzero : (0 : F) ∈ (pts.eraseIdx j).map fun y => pts.getD i 0 - y :=
      List.mem_map.mpr ⟨pts.getD i 0, hmem, sub_self _⟩
    rw [List.prod_eq_zero hzero, mul_zero]
  have hden := lagDenom_ne_zero pts hnd i hi
  rw [listProd_eq_prod] at hden
  rw [listProd_eq_prod, mul_assoc, mul_comm (invF _) _, invF_mul_self _ hden, mul_one]

/-- Uniqueness: the interpolation of values that come from a polynomial of
degree below the number of (distinct) nodes recovers that polynomial. -/
theorem toPoly_lagrangeInterp_eq (pts vals : List F) (hnd : pts.Nodup)
    (q : Polynomial F) (hdeg : q.natDegree < pts.length)
    (hvals : ∀ i, i < pts.length → q.eval (pts.getD i 0) = vals.getD i 0) :
    toPoly (lagrangeInterp pts vals) = q := by
  have hn : 0 < pts.length := lt_of_le_of_lt (Nat.zero_le _) hdeg
  have hdz : toPoly (lagrangeInterp pts vals) - q = 0 := by
    apply Polynomial.eq_zero_of_natDegree_lt_card_of_eval_eq_zero _
      (f := fun i : Fin pts.length => pts.getD (i : ℕ) 0)
    · intro a b hab
      apply Fin.ext
      have hab2 : pts.getD (a : ℕ) 0 = pts.getD (b : ℕ) 0 := hab
      have ha := List.getD_eq_getElem pts 0 a.isLt
      have hb := List.getD_eq_getElem pts 0 b.isLt
      rw [ha, hb] at hab2
      exact hnd.getElem_inj_iff.mp hab2
    · intro i
      have hnode := evalPoly_lagrangeInterp_node pts vals hnd i i.isLt
      rw [Polynomial.eval_sub, evalPoly_toPoly, hnode, hvals i i.isLt, sub_self]
    · rw [Fintype.card_fin]
      exact lt_of_le_of_lt (Polynomial.natDegree_sub_le _ _)
        (max_lt (natDegree_toPoly_lt _ _ (lagrangeInterp_length pts vals) hn) hdeg)
  exact sub_eq_zero.mp hdz

theorem getD_map_eval (pts : List F) (q : Polynomial F) (i : ℕ) (hi : i < pts.length) :
    (pts.map fun y => q.eval y).getD i 0 = q.eval (pts.getD i 0) := by
  rw [List.getD_eq_getElem _ _ (by simpa using hi), List.getD_eq_getElem _ _ hi,
    List.getElem_map]

/-- Interpolating a polynomial's evaluations at distinct nodes recovers the
polynomial. -/
theorem toPoly_lagrangeInterp_evals (pts : List F) (hnd : pts.Nodup)
    (q : Polynomial F) (hdeg : q.natDegree < pts.length) :
    toPoly (lagrangeInterp pts (pts.map fun y => q.eval y)) = q :=
  toPoly_lagrangeInterp_eq pts _ hnd q hdeg fun i hi =>
    (getD_map_eval pts q i hi).symm

end InterpolationProofs

/-! ## Constraint expressions (the AIR interface)

Modelled from the spec (4.1): an AIR appends symbolic polynomial constraint
expressions over the window (current row, next row) of trace values; variables
`0..w-1` are the current row, `w..2w-1` the next row. -/

inductive Expr : Type
  | var : ℕ → Expr
  | const : F → Expr
  | add : Expr → Expr → Expr
  | sub : Expr → Expr → Expr
  | mul : Expr → Expr → Expr

/-- Evaluate an expression in any commutative ring, mapping constants through
`φ` and variables through `env`. -/
def Expr.evalWith {R : Type} [CommRing R] (φ : F → R) (env : ℕ → R) : Expr → R
  | var j => env j
  | const c => φ c
  | add a b => evalWith φ env a + evalWith φ env b
  | sub a b => evalWith φ env a - evalWith φ env b
  | mul a b => evalWith φ env a * evalWith φ env b

/-- Field evaluation of a constraint expression. -/
def Expr.evalF (env : ℕ → F) (e : Expr) : F := Expr.evalWith id env e

/-- The degree bound an AIR reports for a constraint expression (spec 4.1). -/
def Expr.deg : Expr → ℕ
  | var _ => 1
  | const _ => 0
  | add a b => max a.deg b.deg
  | sub a b => max a.deg b.deg
  | mul a b => a.deg + b.deg

theorem Expr.evalWith_hom {R S : Type} [CommRing R] [CommRing S] (ψ : R →+* S)
    (φ : F → R) (env : ℕ → R) (e : Expr) :
    ψ (Expr.evalWith φ env e) =
      Expr.evalWith (fun c => ψ (φ c)) (fun j => ψ (env j)) e := by
  induction e with
  | var j => rfl
  | const c => rfl
  | add a b iha ihb => simp only [Expr.evalWith, map_add, iha, ihb]
  | sub a b iha ihb => simp only [Expr.evalWith, map_sub, iha, ihb]
  | mul a b iha ihb => simp only [Expr.evalWith, map_mul, iha, ihb]

theorem Expr.evalWith_congr {R : Type} [CommRing R] (φ₁ φ₂ : F → R)
    (env₁ env₂ : ℕ → R) (hφ : ∀ c, φ₁ c = φ₂ c) (henv : ∀ j, env₁ j = env₂ j)
    (e : Expr) : Expr.evalWith φ₁ env₁ e = Expr.evalWith φ₂ env₂ e := by
  induction e with
  | var j => exact henv j
  | const c => exact hφ c
  | add a b iha ihb => simp only [Expr.evalWith, iha, ihb]
  | sub a b iha ihb => simp only [Expr.evalWith, iha, ihb]
  | mul a b iha ihb => simp only [Expr.evalWith, iha, ihb]

theorem Expr.natDegree_evalWith_le (env : ℕ → Polynomial F) (D : ℕ)
    (henv : ∀ j, (env j).natDegree ≤ D) (e : Expr) :
    (Expr.evalWith Polynomial.C env e).natDegree ≤ e.deg * D := by
  induction e with
  | var j => simpa [Expr.evalWith, Expr.deg] using henv j
  | const c => simp [Expr.evalWith, Expr.deg]
  | add a b iha ihb =>
    refine le_trans (Polynomial.natDegree_add_le _ _) ?_
    exact max_le (le_trans iha (Nat.mul_le_mul_right D (le_max_left _ _)))
      (le_trans ihb (Nat.mul_le_mul_right D (le_max_right _ _)))
  | sub a b iha ihb =>
    refine le_trans (Polynomial.natDegree_sub_le _ _) ?_
    exact max_le (le_trans iha (Nat.mul_le_mul_right D (le_max_left _ _)))
      (le_trans ihb (Nat.mul_le_mul_right D (le_max_right _ _)))
  | mul a b iha ihb =>
    refine le_trans (Polynomial.natDegree_mul_le) ?_
    rw [show (a.mul b).deg = a.deg + b.deg from rfl, Nat.add_mul]
    omega

/-! ## The quadratic extension field

Modelled from the spec (2. item 1: "an extension field for soundness
amplification"; 4.5 step 4: the OOD point lives in the extension field).  The
driver uses `BinomialExtensionField<Val, 2>`, the binomial extension
`F[X]/(X^2 - 7)`. -/

/-- Element `a + b·X` of `F[X]/(X^2 - 7)`. -/
structure Fext where
  a : F
  b : F
deriving DecidableEq

theorem Fext.ext_iff2 (x y : Fext) : x = y ↔ x.a = y.a ∧ x.b = y.b := by
  cases x; cases y; simp

instance : Zero Fext := ⟨⟨0, 0⟩⟩
instance : One Fext := ⟨⟨1, 0⟩⟩
instance : Add Fext := ⟨fun x y => ⟨x.a + y.a, x.b + y.b⟩⟩
instance : Neg Fext := ⟨fun x => ⟨-x.a, -x.b⟩⟩
instance : Sub Fext := ⟨fun x y => ⟨x.a - y.a, x.b - y.b⟩⟩
instance : Mul Fext := ⟨fun x y => ⟨x.a * y.a + 7 * (x.b * y.b), x.a * y.b + x.b * y.a⟩⟩

theorem Fext.add_def (x y : Fext) : x + y = ⟨x.a + y.a, x.b + y.b⟩ := rfl
theorem Fext.mul_def (x y : Fext) :
    x * y = ⟨x.a * y.a + 7 * (x.b * y.b), x.a * y.b + x.b * y.a⟩ := rfl
theorem Fext.neg_def (x : Fext) : -x = ⟨-x.a, -x.b⟩ := rfl
theorem Fext.sub_def (x y : Fext) : x - y = ⟨x.a - y.a, x.b - y.b⟩ := rfl
theorem Fext.zero_def : (0 : Fext) = ⟨0, 0⟩ := rfl
theorem Fext.one_def : (1 : Fext) = ⟨1, 0⟩ := rfl

instance : CommRing Fext where
  nsmul := nsmulRec
  zsmul := zsmulRec
  add_assoc x y z := by
    simp only [Fext.add_def, Fext.ext_iff2]
    constructor <;> ring_nf
  zero_add x := by simp only [Fext.zero_def, Fext.add_def, Fext.ext_iff2]; constructor <;> ring_nf
  add_zero x := by simp only [Fext.zero_def, Fext.add_def, Fext.ext_iff2]; constructor <;> ring_nf
  add_comm x y := by simp only [Fext.add_def, Fext.ext_iff2]; constructor <;> ring_nf
  neg_add_cancel x := by
    simp only [Fext.neg_def, Fext.add_def, Fext.zero_def, Fext.ext_iff2]
    constructor <;> ring_nf
  sub_eq_add_neg x y := by
    simp only [Fext.sub_def, Fext.neg_def, Fext.add_def, Fext.ext_iff2]
    constructor <;> ring_nf
  mul_assoc x y z := by
    simp only [Fext.mul_def, Fext.ext_iff2]
    constructor <;> ring_nf
  one_mul x := by simp only [Fext.one_def, Fext.mul_def, Fext.ext_iff2]; constructor <;> ring_nf
  mul_one x := by simp only [Fext.one_def, Fext.mul_def, Fext.ext_iff2]; constructor <;> ring_nf
  left_distrib x y z := by
    simp only [Fext.mul_def, Fext.add_def, Fext.ext_iff2]
    constructor <;> ring_nf
  right_distrib x y z := by
    simp only [Fext.mul_def, Fext.add_def, Fext.ext_iff2]
    constructor <;> ring_nf
  mul_comm x y := by simp only [Fext.mul_def, Fext.ext_iff2]; constructor <;> ring_nf
  zero_mul x := by simp only [Fext.zero_def, Fext.mul_def, Fext.ext_iff2]; constructor <;> ring_nf
  mul_zero x := by simp only [Fext.zero_def, Fext.mul_def, Fext.ext_iff2]; constructor <;> ring_nf

/-- The embedding of the base field into the extension, as a ring hom. -/
def FextOfF : F →+* Fext where
  toFun := fun x => ⟨x, 0⟩
  map_one' := rfl
  map_mul' x y := by simp only [Fext.mul_def, Fext.ext_iff2]; constructor <;> ring_nf
  map_zero' := rfl
  map_add' x y := by simp only [Fext.add_def, Fext.ext_iff2]; constructor <;> ring_nf

/-- Horner evaluation of a base-field coefficient list at an extension-field
point. -/
def evalPolyExt (p : List F) (z : Fext) : Fext :=
  p.foldr (fun c acc => FextOfF c + z * acc) 0

theorem evalPolyExt_eq_eval₂ (p : List F) (z : Fext) :
    evalPolyExt p z = Polynomial.eval₂ FextOfF z (toPoly p) := by
  induction p with
  | nil => simp [evalPolyExt, toPoly]
  | cons c p ih =>
    simp only [evalPolyExt, List.foldr_cons, toPoly, Polynomial.eval₂_add,
      Polynomial.eval₂_C, Polynomial.eval₂_mul, Polynomial.eval₂_X]
    rw [show (p.foldr (fun c acc => FextOfF c + z * acc) 0 : Fext) = evalPolyExt p z
      from rfl, ih]

/-- Executable `2^k`-th power in the extension field by iterated squaring. -/
def extPowTwoPow (z : Fext) : ℕ → Fext
  | 0 => z
  | k + 1 => let y := extPowTwoPow z k; y * y

theorem extPowTwoPow_correct (z : Fext) (k : ℕ) : extPowTwoPow z k = z ^ 2 ^ k := by
  induction k with
  | zero => simp [extPowTwoPow]
  | succ k ih =>
    show extPowTwoPow z k * extPowTwoPow z k = z ^ 2 ^ (k + 1)
    rw [ih, ← pow_add, pow_succ]
    congr 1
    omega

/-! ## FRI (spec 4.4)

Modelled from the spec: commit to the current codeword, derive a folding
challenge from the transcript after absorbing the commitment, fold the
codeword pairwise into a half-length codeword, and repeat; the pair of a
position `i` is `i + L/2` (the two square roots of the next domain point), so
each committed round matrix has rows `[v i, v (i + L/2)]`. -/

/-- Generic Horner combination `Σ αⁱ · vals i` used both for the
constraint-combination challenge and for the trace/quotient recombination. -/
def combineWith {R : Type} [CommRing R] (α : R) (vals : List R) : R :=
  vals.foldr (fun v acc => v + α * acc) 0

/-- One FRI fold of the pair `(v i, v (i + L/2))` over the domain point `x`
with challenge `β`: the value of the degree-halved polynomial at `x^2`. -/
def foldPair (β x a b : F) : F :=
  (a + b) * invF 2 + β * ((a - b) * invF (2 * x))

def zipWith3F (f : F → F → F → F) : List F → List F → List F → List F
  | a :: as, b :: bs, c :: cs => f a b c :: zipWith3F f as bs cs
  | _, _, _ => []

/-- Fold a codeword of even length `L` over its domain into length `L/2`. -/
def foldOnce (β : F) (v pts : List F) : List F :=
  zipWith3F (fun a b x => foldPair β x a b) (v.take (v.length / 2))
    (v.drop (v.length / 2)) pts

/-- The folded domain: squares of the first half of the points. -/
def squareFirstHalf (pts : List F) : List F :=
  (pts.take (pts.length / 2)).map fun x => x * x

/-- The width-2 row matrix committed for a codeword: row `i` is
`[v i, v (i + L/2)]`. -/
def pairRowsOf (v : List F) : List (List F) :=
  List.zipWith (fun a b => [a, b]) (v.take (v.length / 2)) (v.drop (v.length / 2))

/-- Data of one FRI commit-phase round retained by the prover. -/
structure FriRound where
  root : List F
  pairRows : List (List F)
  codeword : List F
  domain : List F
  beta : F

/-- The FRI commit phase (spec 4.4 steps 2-3): `r` rounds of
commit / absorb / sample / fold, starting from a tree of depth `d` for the
first round's pair matrix.  Returns the rounds, the final codeword and its
domain, and the transcript state. -/
def commitPhase (perm : Permutation) :
    ℕ → ℕ → List F → List F → DuplexChallenger →
      (List FriRound × List F × List F × DuplexChallenger)
  | 0, _, v, pts, ch => ([], v, pts, ch)
  | r + 1, d, v, pts, ch =>
    let rows := pairRowsOf v
    let root := merkleRoot perm d rows
    let ch2 := observeList perm ch root
    let s := sample perm ch2
    let v2 := foldOnce s.1 v pts
    let rest := commitPhase perm r (d - 1) v2 (squareFirstHalf pts) s.2
    (⟨root, rows, v, pts, s.1⟩ :: rest.1, rest.2)

/-- The verifier's replay of the FRI transcript from the committed roots
alone: absorb each root, sample each folding challenge (spec 4.4 verifier
side). -/
def friReplay (perm : Permutation) :
    List (List F) → DuplexChallenger → (List F × DuplexChallenger)
  | [], ch => ([], ch)
  | root :: roots, ch =>
    let s := sample perm (observeList perm ch root)
    let rest := friReplay perm roots s.2
    (s.1 :: rest.1, rest.2)

/-- The prover's commit phase produces exactly the transcript the verifier
replays from the round roots. -/
theorem friReplay_commitPhase (perm : Permutation) :
    ∀ (r d : ℕ) (v pts : List F) (ch : DuplexChallenger),
      friReplay perm ((commitPhase perm r d v pts ch).1.map FriRound.root) ch =
        ((commitPhase perm r d v pts ch).1.map FriRound.beta,
          (commitPhase perm r d v pts ch).2.2.2) := by
  intro r
  induction r with
  | zero => intro d v pts ch; rfl
  | succ r ih =>
    intro d v pts ch
    simp only [commitPhase, List.map_cons, friReplay]
    rw [ih]

/-- Proof-of-work check (spec 4.4 step 4): absorb the nonce, squeeze, and
require `proof_of_work_bits` low bits to vanish. -/
def powCheckOk (perm : Permutation) (ch : DuplexChallenger) (bits nonce : ℕ) : Bool :=
  decide ((sample perm (observe perm ch ((nonce : ℕ) : F))).1.val % 2 ^ bits = 0)

def findNonceAux (perm : Permutation) (ch : DuplexChallenger) (bits : ℕ) :
    ℕ → ℕ → Option ℕ
  | 0, _ => none
  | fuel + 1, n => if powCheckOk perm ch bits n then some n else
      findNonceAux perm ch bits fuel (n + 1)

/-- Grinding: search nonces `0, 1, ...` (bounded fuel) for one passing the
proof-of-work check. -/
def findNonce (perm : Permutation) (ch : DuplexChallenger) (bits : ℕ) : Option ℕ :=
  findNonceAux perm ch bits (2 ^ (bits + 8)) 0

theorem findNonceAux_ok (perm : Permutation) (ch : DuplexChallenger) (bits : ℕ) :
    ∀ (fuel n m : ℕ), findNonceAux perm ch bits fuel n = some m →
      powCheckOk perm ch bits m = true := by
  intro fuel
  induction fuel with
  | zero => intro n m h; exact absurd h (by simp [findNonceAux])
  | succ f ih =>
    intro n m h
    by_cases hc : powCheckOk perm ch bits n
    · simp only [findNonceAux, hc, if_true, Option.some.injEq] at h
      exact h ▸ hc
    · simp only [findNonceAux, hc, if_false] at h
      exact ih (n + 1) m h

theorem findNonce_ok (perm : Permutation) (ch : DuplexChallenger) (bits m : ℕ)
    (h : findNonce perm ch bits = some m) : powCheckOk perm ch bits m = true :=
  findNonceAux_ok perm ch bits _ 0 m h

/-- Query index derivation (spec 4.4 step 5): squeeze `count` elements and
reduce each modulo the pair count. -/
def queryIndices (perm : Permutation) (ch : DuplexChallenger) (count halfN : ℕ) :
    List ℕ :=
  (sampleN perm count ch).1.map fun x => x.val % halfN

/-! ## STARK prover and verifier (spec 4.5, 4.6)

Modelled from the spec: commit LDE trace, derive the constraint-combination
challenge, build and commit the quotient, derive the out-of-domain point in
the extension field, open trace and quotient at it, combine everything into a
single codeword, and hand it to FRI.  The verifier mirrors every derivation
deterministically from the proof's declared commitments and evaluations. -/

/-- Fuel-bounded floor log2. -/
def log2Aux : ℕ → ℕ → ℕ
  | 0, _ => 0
  | fuel + 1, n => if n ≤ 1 then 0 else log2Aux fuel (n / 2) + 1

def myLog2 (n : ℕ) : ℕ := log2Aux 64 n

theorem log2Aux_pow (fuel k : ℕ) (h : k < fuel) : log2Aux fuel (2 ^ k) = k := by
  induction fuel generalizing k with
  | zero => omega
  | succ f ih =>
    cases k with
    | zero => simp [log2Aux]
    | succ k =>
      have h2 : ¬ (2 ^ (k + 1) ≤ 1) := by
        have : 2 ^ (k + 1) ≥ 2 := by
          have := Nat.one_lt_two_pow_iff.mpr (Nat.succ_ne_zero k)
          omega
        omega
      simp only [log2Aux, h2, if_false]
      rw [pow_succ]
      have hdiv : 2 ^ k * 2 / 2 = 2 ^ k := by omega
      rw [hdiv, ih k (by omega)]

theorem myLog2_pow (k : ℕ) (h : k < 64) : myLog2 (2 ^ k) = k :=
  log2Aux_pow 64 k h

/-- Executable list of powers `x^0, x^1, ..., x^(n-1)`. -/
def powersAux (x : F) : F → ℕ → List F
  | _, 0 => []
  | acc, n + 1 => acc :: powersAux x (acc * x) n

def powersOf (x : F) (n : ℕ) : List F := powersAux x 1 n

theorem powersAux_length (x : F) : ∀ (n : ℕ) (acc : F), (powersAux x acc n).length = n := by
  intro n
  induction n with
  | zero => intro acc; rfl
  | succ m ih => intro acc; simp [powersAux, ih]

theorem powersOf_length (x : F) (n : ℕ) : (powersOf x n).length = n :=
  powersAux_length x n 1

theorem powersAux_getD (x : F) :
    ∀ (n i : ℕ) (acc : F), i < n → (powersAux x acc n).getD i 0 = acc * x ^ i := by
  intro n
  induction n with
  | zero => omega
  | succ m ih =>
    intro i acc hi
    cases i with
    | zero => simp [powersAux]
    | succ j =>
      have := ih j (acc * x) (by omega)
      simp only [powersAux, List.getD_cons_succ]
      rw [this, pow_succ]
      ring

theorem powersOf_getD (x : F) (n i : ℕ) (hi : i < n) :
    (powersOf x n).getD i 0 = x ^ i := by
  rw [powersOf, powersAux_getD x n i 1 hi, one_mul]

/-- The trace evaluation domain `{ω^i}` of size `2^k` (spec 4.3). -/
def basePtsOf (k : ℕ) : List F := powersOf (root2 k) (2 ^ k)

/-- The extended (blown-up) coset domain `{7 · w^j}` of size `2^(k+1)`. -/
def extPtsOf (k : ℕ) : List F :=
  (powersOf (root2 (k + 1)) (2 ^ (k + 1))).map fun y => 7 * y

/-- An AIR (spec 4.1): a column count and a list of constraint expressions
over the window; variables `0..w-1` are the current row, `w..2w-1` the next
row.  Every constraint must vanish on every transition window of a valid
trace. -/
structure Air where
  width : ℕ
  constraints : List Expr

/-- Modelled from the spec (8. "Completeness", 1.): the Fibonacci AIR of the
`p3_keccak_air` crate (source not included) constrains each transition window
by `next[0] = cur[1]`, `next[1] = cur[2]` and `cur[0] + cur[1] = cur[2]`. -/
def FibonacciAir : Air :=
  { width := 3
    constraints :=
      [Expr.sub (Expr.var 3) (Expr.var 1),
       Expr.sub (Expr.var 4) (Expr.var 2),
       Expr.sub (Expr.add (Expr.var 0) (Expr.var 1)) (Expr.var 2)] }

/-- `FriConfig` from the driver (lines 92-97): blowup, query count,
proof-of-work bits. -/
structure FriConfig where
  log_blowup : ℕ
  num_queries : ℕ
  proof_of_work_bits : ℕ

/-- The driver's configuration values. -/
def driverFriConfig : FriConfig :=
  { log_blowup := 1, num_queries := 100, proof_of_work_bits := 16 }

/-- The configuration ranges the model supports (spec 4.4 "soundness knob",
9.: zero queries are a configuration error; the blowup is the small power of
two used by the driver). -/
def supportedConfig (cfg : FriConfig) : Prop :=
  cfg.log_blowup = 1 ∧ 1 ≤ cfg.num_queries

/-- A valid trace (spec 4.1, 8.): every constraint of the AIR vanishes on
every transition window (current row, next row). -/
def validTrace (air : Air) (trace : List (List F)) : Prop :=
  ∀ i, i + 1 < trace.length → ∀ e ∈ air.constraints,
    Expr.evalF (fun v =>
      if v < air.width then (trace.getD i []).getD v 0
      else (trace.getD (i + 1) []).getD (v - air.width) 0) e = 0

/-- Openings carried per verifier query (spec 3. "Opening Proof"). -/
structure QueryOpening where
  traceLow : List F
  traceLowPath : List (List F)
  traceHigh : List F
  traceHighPath : List (List F)
  quotLow : List F
  quotLowPath : List (List F)
  quotHigh : List F
  quotHighPath : List (List F)
  friPairs : List (List F × List (List F))

/-- The proof object (spec 3. "Proof"): commitments, out-of-domain
evaluations, FRI round commitments, final polynomial, proof-of-work witness
and query openings. -/
structure Proof where
  logDegree : ℕ
  traceRoot : List F
  quotRoot : List F
  oodTrace : List Fext
  oodTraceNext : List Fext
  oodQuot : Fext
  friRoots : List (List F)
  finalPoly : List F
  powNonce : ℕ
  queryOpenings : List QueryOpening

/-- Caller-input validation failure of the prover (spec 7. `ShapeError`). -/
inductive ShapeError
  | badShape
deriving DecidableEq

/-- Typed verifier failures (spec 7.). -/
inductive VerificationError
  | shape
  | oodMismatch
  | friFailure
deriving DecidableEq

deriving instance DecidableEq for Except

/-- Interleave extension elements into base-field absorptions. -/
def flattenExt (l : List Fext) : List F :=
  l.foldr (fun x acc => x.a :: x.b :: acc) []

/-- Phase 1 transcript: absorb public values and the trace commitment, squeeze
the constraint-combination challenge (spec 4.5 step 2). -/
def challengesPhase1 (perm : Permutation) (pubs troot : List F) :
    F × DuplexChallenger :=
  sample perm (observeList perm (observeList perm newChallenger pubs) troot)

/-- Phase 2: absorb the quotient commitment, squeeze the out-of-domain point
in the extension field (spec 4.5 step 4). -/
def challengesPhase2 (perm : Permutation) (ch : DuplexChallenger) (qroot : List F) :
    Fext × DuplexChallenger :=
  let s1 := sample perm (observeList perm ch qroot)
  let s2 := sample perm s1.2
  (⟨s1.1, s2.1⟩, s2.2)

/-- Phase 3: absorb the out-of-domain evaluations, squeeze the recombination
challenge (spec 4.5 steps 5-6). -/
def challengesPhase3 (perm : Permutation) (ch : DuplexChallenger) (oodFlat : List F) :
    F × DuplexChallenger :=
  sample perm (observeList perm ch oodFlat)

/-- The shape precondition the prover validates before doing anything
(spec 4.5 "Failure", 7. `ShapeError`): power-of-two height, at least two rows,
and every row as wide as the AIR requires. -/
def traceShapeOk (air : Air) (trace : List (List F)) : Bool :=
  decide (2 ^ myLog2 trace.length = trace.length) &&
    decide (2 ≤ trace.length) &&
    trace.all fun r => r.length = air.width

/-- Everything the prover computes before the grinding step, in transcript
order (spec 4.5 steps 1-6).  Kept as a structure so that the grinding
hypothesis and the completeness proof can speak about the intermediate
states. -/
structure ProverRun where
  k : ℕ
  alpha : F
  zeta : Fext
  beta : F
  traceExt : List (List F)
  traceRoot : List F
  qvec : List F
  qRows : List (List F)
  quotRoot : List F
  oodTrace : List Fext
  oodTraceNext : List Fext
  oodQuot : Fext
  combined : List F
  friRounds : List FriRound
  finalCodeword : List F
  finalDomain : List F
  finalPoly : List F
  chAfterFinal : DuplexChallenger

/-- The per-point constraint-combination value (spec 4.5 step 3): the
transition selector `x - ω^(H-1)` times the challenge-weighted sum of all
constraint values at the window read from the extended trace. -/
def constraintVal (air : Air) (alpha omegaLast : F) (traceExt : List (List F))
    (nTot j : ℕ) (x : F) : F :=
  (x - omegaLast) * combineWith alpha (air.constraints.map fun e =>
    Expr.evalF (fun v =>
      if v < air.width then (traceExt.getD j []).getD v 0
      else (traceExt.getD ((j + 2) % nTot) []).getD (v - air.width) 0) e)

/-- The vanishing polynomial `x^H - 1` of the trace domain, evaluated
executably. -/
def evalZH (k : ℕ) (x : F) : F := powF x (2 ^ k) - 1

/-- Spec 4.5 steps 1-6. -/
def proverRun (cfg : FriConfig) (air : Air) (perm : Permutation)
    (trace : List (List F)) (pubs : List F) : ProverRun :=
  let k := myLog2 trace.length
  let nTot := 2 ^ (k + 1)
  let bpts := basePtsOf k
  let epts := extPtsOf k
  let cols := (List.range air.width).map fun m => trace.map fun r => r.getD m 0
  let tpolys := cols.map fun c => lagrangeInterp bpts c
  let traceExt := epts.map fun x => tpolys.map fun p => evalPoly p x
  let traceRoot := merkleRoot perm (k + 1) traceExt
  let s1 := challengesPhase1 perm pubs traceRoot
  let alpha := s1.1
  let omegaLast := powF (root2 k) (2 ^ k - 1)
  let cvec := (List.range nTot).map fun j =>
    constraintVal air alpha omegaLast traceExt nTot j (epts.getD j 0)
  let qvec := (List.range nTot).map fun j =>
    cvec.getD j 0 * invF (evalZH k (epts.getD j 0))
  let qRows := qvec.map fun v => [v]
  let quotRoot := merkleRoot perm (k + 1) qRows
  let s2 := challengesPhase2 perm s1.2 quotRoot
  let zeta := s2.1
  let oodTrace := tpolys.map fun p => evalPolyExt p zeta
  let oodTraceNext := tpolys.map fun p => evalPolyExt p (FextOfF (root2 k) * zeta)
  let oodQuot := evalPolyExt (lagrangeInterp epts qvec) zeta
  let oodFlat := flattenExt oodTrace ++ flattenExt oodTraceNext ++
    [oodQuot.a, oodQuot.b]
  let s3 := challengesPhase3 perm s2.2 oodFlat
  let beta := s3.1
  let combined := (List.range nTot).map fun j =>
    combineWith beta ((traceExt.getD j []) ++ [qvec.getD j 0])
  let rcount := (k + 1) - cfg.log_blowup
  let cp := commitPhase perm rcount k combined epts s3.2
  let finalPoly := lagrangeInterp cp.2.2.1 cp.2.1
  let chAfterFinal := observeList perm cp.2.2.2 finalPoly
  { k := k, alpha := alpha, zeta := zeta, beta := beta, traceExt := traceExt
    traceRoot := traceRoot, qvec := qvec, qRows := qRows, quotRoot := quotRoot
    oodTrace := oodTrace, oodTraceNext := oodTraceNext, oodQuot := oodQuot
    combined := combined, friRounds := cp.1, finalCodeword := cp.2.1
    finalDomain := cp.2.2.1, finalPoly := finalPoly
    chAfterFinal := chAfterFinal }

/-- Per-round FRI openings for query index `p`: at absolute round `rr`, open
the pair matrix at `p` reduced modulo the round's pair count (spec 4.4 step
5). -/
def friPairsFor (perm : Permutation) (kk : ℕ) :
    List FriRound → ℕ → ℕ → List (List F × List (List F))
  | [], _, _ => []
  | rd :: rest, rr, p =>
    let pr := p % 2 ^ (kk - rr)
    (rd.pairRows.getD pr [], merklePath perm (kk - rr) rd.pairRows pr) ::
      friPairsFor perm kk rest (rr + 1) p

/-- The query openings for one query index `p` (spec 4.4 step 5, 4.2 `open`). -/
def openingsFor (perm : Permutation) (run : ProverRun) (p : ℕ) : QueryOpening :=
  let k := run.k
  { traceLow := run.traceExt.getD p []
    traceLowPath := merklePath perm (k + 1) run.traceExt p
    traceHigh := run.traceExt.getD (p + 2 ^ k) []
    traceHighPath := merklePath perm (k + 1) run.traceExt (p + 2 ^ k)
    quotLow := run.qRows.getD p []
    quotLowPath := merklePath perm (k + 1) run.qRows p
    quotHigh := run.qRows.getD (p + 2 ^ k) []
    quotHighPath := merklePath perm (k + 1) run.qRows (p + 2 ^ k)
    friPairs := friPairsFor perm k run.friRounds 0 p }

/-- `prove` (spec 6., 4.5): validate the trace shape first (spec 7.
`ShapeError`, raised before any cryptographic work), then run the pipeline,
grind the proof-of-work nonce, derive the query indices and assemble the
proof. -/
def prove (cfg : FriConfig) (air : Air) (perm : Permutation)
    (trace : List (List F)) (pubs : List F) : Except ShapeError Proof :=
  if traceShapeOk air trace then
    let run := proverRun cfg air perm trace pubs
    let nonce := (findNonce perm run.chAfterFinal cfg.proof_of_work_bits).getD 0
    let chQ := (sample perm (observe perm run.chAfterFinal ((nonce : ℕ) : F))).2
    let indices := queryIndices perm chQ cfg.num_queries (2 ^ run.k)
    Except.ok
      { logDegree := run.k
        traceRoot := run.traceRoot
        quotRoot := run.quotRoot
        oodTrace := run.oodTrace
        oodTraceNext := run.oodTraceNext
        oodQuot := run.oodQuot
        friRoots := run.friRounds.map FriRound.root
        finalPoly := run.finalPoly
        powNonce := nonce
        queryOpenings := indices.map fun p => openingsFor perm run p }
  else
    Except.error ShapeError.badShape

/-- The chronological absorb log of `prove`: empty when the shape validation
fails, because the failure precedes all commitment and transcript work. -/
def proveAbsorbLog (cfg : FriConfig) (air : Air) (perm : Permutation)
    (trace : List (List F)) (pubs : List F) : List F :=
  if traceShapeOk air trace then
    let run := proverRun cfg air perm trace pubs
    pubs ++ run.traceRoot ++ run.quotRoot ++ flattenExt run.oodTrace ++
      flattenExt run.oodTraceNext ++ [run.oodQuot.a, run.oodQuot.b] ++
      (run.friRounds.map FriRound.root).flatten ++ run.finalPoly
  else
    []

/-- Round-`r` domain of the FRI fold: square-and-halve the extended domain
`r` times. -/
def domAt (epts : List F) : ℕ → List F
  | 0 => epts
  | r + 1 => squareFirstHalf (domAt epts r)

/-- The list of the first `r` round domains, in round order. -/
def domsFrom (pts : List F) : ℕ → List (List F)
  | 0 => []
  | r + 1 => pts :: domsFrom (squareFirstHalf pts) r

/-- Walk the FRI rounds `1, 2, ...` of one query: at each round, verify the
Merkle opening of the pair at the folded index, check that the component the
previous fold landed in matches the expected value, and fold again.  Returns
the index and value that reach the final codeword (spec 4.4 verifier side). -/
def friCheckAux (perm : Permutation) (kk : ℕ) :
    List (List F × F × List F × (List F × List (List F))) → ℕ → ℕ → F →
      Option (ℕ × F)
  | [], _, prevIdx, exp => some (prevIdx, exp)
  | (root, rbeta, dom, (pair, path)) :: rest, r, prevIdx, exp =>
    let half := 2 ^ (kk - r)
    let pr := prevIdx % half
    let c := prevIdx / half
    if merkleVerify perm root pr pair path && decide (pair.getD c 0 = exp) &&
        decide (pair.length = 2) then
      friCheckAux perm kk rest (r + 1) pr
        (foldPair rbeta (dom.getD pr 0) (pair.getD 0 0) (pair.getD 1 0))
    else
      none

def zip4 {α β γ δ : Type} : List α → List β → List γ → List δ →
    List (α × β × γ × δ)
  | a :: as, b :: bs, c :: cs, d :: ds => (a, b, c, d) :: zip4 as bs cs ds
  | _, _, _, _ => []

/-- All checks of one verifier query (spec 4.6, 4.4): Merkle-verify the four
trace/quotient openings, recombine them with the FRI input challenge, check
the round-0 FRI opening equals the recombination, walk the folds, and check
the final codeword value against the explicit final polynomial evaluated at
the query's residual domain point. -/
def queryCheck (perm : Permutation) (kk : ℕ) (beta : F) (troot qroot : List F)
    (friRoots : List (List F)) (betas : List F) (doms : List (List F))
    (finalPoly finalDom : List F) (p : ℕ) (op : QueryOpening) : Bool :=
  merkleVerify perm troot p op.traceLow op.traceLowPath &&
  merkleVerify perm troot (p + 2 ^ kk) op.traceHigh op.traceHighPath &&
  merkleVerify perm qroot p op.quotLow op.quotLowPath &&
  merkleVerify perm qroot (p + 2 ^ kk) op.quotHigh op.quotHighPath &&
  (let cLow := combineWith beta (op.traceLow ++ [op.quotLow.getD 0 0])
   let cHigh := combineWith beta (op.traceHigh ++ [op.quotHigh.getD 0 0])
   match op.friPairs, friRoots, betas, doms with
   | (pair0, path0) :: restPairs, root0 :: restRoots, beta0 :: restBetas,
       dom0 :: restDoms =>
     merkleVerify perm root0 p pair0 path0 &&
     decide (pair0 = [cLow, cHigh]) &&
     (match friCheckAux perm kk (zip4 restRoots restBetas restDoms restPairs) 1 p
         (foldPair beta0 (dom0.getD p 0) cLow cHigh) with
      | some (idxF, valF) => decide (evalPoly finalPoly (finalDom.getD idxF 0) = valF)
      | none => false)
   | _, _, _, _ => false)

/-- `verify` (spec 6., 4.6): deterministically replay every transcript
derivation from the proof's declared data, re-check the proof of work, check
the out-of-domain algebraic identity (multiplied through by the vanishing
polynomial), and run every FRI query check.  Every failure is a typed
`VerificationError`. -/
def verify (cfg : FriConfig) (air : Air) (perm : Permutation) (pf : Proof)
    (pubs : List F) : Except VerificationError Unit :=
  let kk := pf.logDegree
  let rcount := (kk + 1) - cfg.log_blowup
  if ¬ (pf.oodTrace.length = air.width ∧ pf.oodTraceNext.length = air.width ∧
      pf.friRoots.length = rcount ∧ pf.queryOpenings.length = cfg.num_queries ∧
      pf.finalPoly.length ≤ 2 ^ cfg.log_blowup ∧ 1 ≤ rcount) then
    Except.error VerificationError.shape
  else
    let s1 := challengesPhase1 perm pubs pf.traceRoot
    let alpha := s1.1
    let s2 := challengesPhase2 perm s1.2 pf.quotRoot
    let zeta := s2.1
    let oodFlat := flattenExt pf.oodTrace ++ flattenExt pf.oodTraceNext ++
      [pf.oodQuot.a, pf.oodQuot.b]
    let s3 := challengesPhase3 perm s2.2 oodFlat
    let beta := s3.1
    let fr := friReplay perm pf.friRoots s3.2
    let ch6 := observeList perm fr.2 pf.finalPoly
    if ¬ powCheckOk perm ch6 cfg.proof_of_work_bits pf.powNonce then
      Except.error VerificationError.friFailure
    else
      let omegaLast := powF (root2 kk) (2 ^ kk - 1)
      let lhs := (zeta - FextOfF omegaLast) * combineWith (FextOfF alpha)
        (air.constraints.map (Expr.evalWith FextOfF fun v =>
          if v < air.width then pf.oodTrace.getD v 0
          else pf.oodTraceNext.getD (v - air.width) 0))
      let rhs := pf.oodQuot * (extPowTwoPow zeta kk - 1)
      if ¬ (lhs = rhs) then
        Except.error VerificationError.oodMismatch
      else
        let chQ := (sample perm (observe perm ch6 ((pf.powNonce : ℕ) : F))).2
        let indices := queryIndices perm chQ cfg.num_queries (2 ^ kk)
        let epts := extPtsOf kk
        let doms := domsFrom epts rcount
        let betas := fr.1
        let finalDom := domAt epts rcount
        if (List.zip indices pf.queryOpenings).all fun pr =>
            queryCheck perm kk beta pf.traceRoot pf.quotRoot pf.friRoots betas
              doms pf.finalPoly finalDom pr.1 pr.2 then
          Except.ok ()
        else
          Except.error VerificationError.friFailure

/-! ## FRI round-length invariant (C3), fail-fast (C6), idempotence (C7),
driver shape (C9) -/

theorem zipWith3F_length (f : F → F → F → F) :
    ∀ (a b c : List F), (zipWith3F f a b c).length =
      min (min a.length b.length) c.length := by
  intro a
  induction a with
  | nil => intro b c; cases b <;> cases c <;> simp [zipWith3F]
  | cons x as ih =>
    intro b c
    cases b with
    | nil => simp [zipWith3F]
    | cons y bs =>
      cases c with
      | nil => simp [zipWith3F]
      | cons z cs => simp [zipWith3F, ih]; omega

theorem foldOnce_length (β : F) (v pts : List F) (h : v.length / 2 ≤ pts.length) :
    (foldOnce β v pts).length = v.length / 2 := by
  rw [foldOnce, zipWith3F_length, List.length_take, List.length_drop]
  omega

theorem squareFirstHalf_length (pts : List F) :
    (squareFirstHalf pts).length = pts.length / 2 := by
  rw [squareFirstHalf, List.length_map, List.length_take]
  omega

/-- Core commit-phase invariant: starting from a codeword of length `2^m`,
`r ≤ m` rounds produce exactly `r` committed codewords, the `i`-th having
length `2^(m-i)`, and a final codeword of length `2^(m-r)`. -/
theorem commitPhase_spec (perm : Permutation) :
    ∀ (r d m : ℕ) (v pts : List F) (ch : DuplexChallenger),
      v.length = 2 ^ m → pts.length = 2 ^ m → r ≤ m →
      (commitPhase perm r d v pts ch).1.length = r ∧
      (∀ i, i < r →
        ((commitPhase perm r d v pts ch).1.getD i ⟨[], [], [], [], 0⟩).codeword.length =
          2 ^ (m - i)) ∧
      (commitPhase perm r d v pts ch).2.1.length = 2 ^ (m - r) := by
  intro r
  induction r with
  | zero =>
    intro d m v pts ch hv hp _
    refine ⟨rfl, by omega, ?_⟩
    simpa [commitPhase] using hv
  | succ r ih =>
    intro d m v pts ch hv hp hrm
    have hm1 : 1 ≤ m := by omega
    have hv2 : (foldOnce (sample perm (observeList perm ch
        (merkleRoot perm d (pairRowsOf v)))).1 v pts).length = 2 ^ (m - 1) := by
      rw [foldOnce_length _ _ _ (by omega), hv]
      have h2m : (2 : ℕ) ^ m = 2 ^ (m - 1) * 2 := by
        rw [← pow_succ]
        congr 1
        omega
      omega
    have hp2 : (squareFirstHalf pts).length = 2 ^ (m - 1) := by
      rw [squareFirstHalf_length, hp]
      have h2m : (2 : ℕ) ^ m = 2 ^ (m - 1) * 2 := by
        rw [← pow_succ]
        congr 1
        omega
      omega
    obtain ⟨ihlen, ihcw, ihfinal⟩ := ih (d - 1) (m - 1) _ _
      (sample perm (observeList perm ch (merkleRoot perm d (pairRowsOf v)))).2
      hv2 hp2 (by omega)
    refine ⟨?_, ?_, ?_⟩
    · simp only [commitPhase, List.length_cons]
      rw [ihlen]
    · intro i hi
      cases i with
      | zero =>
        simp only [commitPhase, List.getD_cons_zero]
        simpa using hv
      | succ j =>
        simp only [commitPhase, List.getD_cons_succ]
        rw [ihcw j (by omega)]
        congr 1
        omega
    · simp only [commitPhase]
      rw [ihfinal]
      congr 1
      omega

/-- **C3.** FRI round-length invariant: in every FRI commit phase starting
from a codeword of length `2^n` with minimum length `2^b`, the codeword
committed in round `i+1` has exactly half the length of round `i`'s, the
halving continues until the configured minimum `2^b` is reached (at which
point the final polynomial is sent explicitly), and the number of folding
rounds is `log2 (initial length) - log2 (minimum length)`. -/
theorem fri_round_length_invariant (perm : Permutation) (n b d : ℕ)
    (v pts : List F) (ch : DuplexChallenger)
    (hv : v.length = 2 ^ n) (hp : pts.length = 2 ^ n) (hb : b ≤ n) (hn : n < 64) :
    (commitPhase perm (n - b) d v pts ch).1.length = n - b ∧
    (∀ i, i + 1 < n - b →
      ((commitPhase perm (n - b) d v pts ch).1.getD (i + 1)
          ⟨[], [], [], [], 0⟩).codeword.length =
        ((commitPhase perm (n - b) d v pts ch).1.getD i
          ⟨[], [], [], [], 0⟩).codeword.length / 2) ∧
    (commitPhase perm (n - b) d v pts ch).2.1.length = 2 ^ b ∧
    n - b = myLog2 v.length - myLog2 (2 ^ b) := by
  obtain ⟨hlen, hcw, hfinal⟩ :=
    commitPhase_spec perm (n - b) d n v pts ch hv hp (by omega)
  refine ⟨hlen, ?_, ?_, ?_⟩
  · intro i hi
    rw [hcw (i + 1) (by omega), hcw i (by omega)]
    have h1 : n - i = n - (i + 1) + 1 := by omega
    rw [h1, pow_succ]
    omega
  · rw [hfinal]
    congr 1
    omega
  · rw [hv, myLog2_pow n hn, myLog2_pow b (by omega)]

/-- Witness for C3 at a concrete run: an 8-element codeword folded to the
minimum length 2 in `3 - 1 = 2` rounds with the demo permutation. -/
theorem fri_round_length_invariant_witness :
    (commitPhase demoPerm (3 - 1) 2 (List.replicate 8 1) (List.replicate 8 2)
        newChallenger).1.length = 3 - 1 ∧
    (∀ i, i + 1 < 3 - 1 →
      ((commitPhase demoPerm (3 - 1) 2 (List.replicate 8 1) (List.replicate 8 2)
          newChallenger).1.getD (i + 1) ⟨[], [], [], [], 0⟩).codeword.length =
        ((commitPhase demoPerm (3 - 1) 2 (List.replicate 8 1) (List.replicate 8 2)
          newChallenger).1.getD i ⟨[], [], [], [], 0⟩).codeword.length / 2) ∧
    (commitPhase demoPerm (3 - 1) 2 (List.replicate 8 1) (List.replicate 8 2)
        newChallenger).2.1.length = 2 ^ 1 ∧
    3 - 1 = myLog2 (List.replicate (8 : ℕ) (1 : F)).length - myLog2 (2 ^ 1) :=
  fri_round_length_invariant demoPerm 3 1 2 (List.replicate 8 1)
    (List.replicate 8 2) newChallenger (by decide) (by decide) (by decide)
    (by decide)

/-- **C6.** Prover fail-fast atomicity: called with an invalid-shape input
(trace height not a power of two, or a row width mismatching the AIR's column
count), `prove` fails with `ShapeError` and its absorb log is empty -- no
commitment is built and no transcript work is performed before the failure. -/
theorem prove_fail_fast (cfg : FriConfig) (air : Air) (perm : Permutation)
    (trace : List (List F)) (pubs : List F)
    (hbad : 2 ^ myLog2 trace.length ≠ trace.length ∨
      ∃ r ∈ trace, r.length ≠ air.width) :
    prove cfg air perm trace pubs = Except.error ShapeError.badShape ∧
    proveAbsorbLog cfg air perm trace pubs = [] := by
  have hfalse : traceShapeOk air trace = false := by
    rw [traceShapeOk]
    rcases hbad with h | ⟨r, hr, hw⟩
    · simp [h]
    · have : ¬ trace.all (fun r => r.length = air.width) = true := by
        rw [List.all_eq_true]
        intro hall
        exact hw (by simpa using hall r hr)
      simp only [Bool.and_eq_false_iff]
      right
      exact Bool.not_eq_true _ ▸ (by simpa using this)
  constructor
  · rw [prove, hfalse]
    rfl
  · rw [proveAbsorbLog, hfalse]
    rfl

/-- Witness for C6: a one-row trace of the wrong width is rejected before any
work. -/
theorem prove_fail_fast_witness :
    prove driverFriConfig FibonacciAir demoPerm [[1, 1]] [] =
      Except.error ShapeError.badShape ∧
    proveAbsorbLog driverFriConfig FibonacciAir demoPerm [[1, 1]] [] = [] :=
  prove_fail_fast driverFriConfig FibonacciAir demoPerm [[1, 1]] []
    (Or.inr ⟨[1, 1], by decide, by decide⟩)

/-- **C7.** Idempotent verification: `verify` is a pure function of the
configuration, AIR, permutation, proof and public values; the transcript it
uses is freshly initialized inside the call (spec 3. "created fresh per
prove/verify call"), so two calls on equal inputs yield the same result --
there is no hidden mutable state. -/
theorem verify_idempotent (cfg : FriConfig) (air : Air) (perm : Permutation)
    (pf1 pf2 : Proof) (pubs1 pubs2 : List F)
    (hpf : pf1 = pf2) (hpubs : pubs1 = pubs2) :
    verify cfg air perm pf1 pubs1 = verify cfg air perm pf2 pubs2 := by
  subst hpf; subst hpubs; rfl

/-- A deliberately malformed proof used to witness C7 cheaply. -/
def emptyProof : Proof :=
  { logDegree := 0, traceRoot := [], quotRoot := [], oodTrace := [],
    oodTraceNext := [], oodQuot := 0, friRoots := [], finalPoly := [],
    powNonce := 0, queryOpenings := [] }

/-- Witness for C7: two identically initialized verifications of the same
(here trivially malformed) proof return the same result. -/
theorem verify_idempotent_witness :
    verify driverFriConfig FibonacciAir demoPerm emptyProof [] =
      verify driverFriConfig FibonacciAir demoPerm emptyProof [] :=
  verify_idempotent driverFriConfig FibonacciAir demoPerm emptyProof emptyProof
    [] [] rfl rfl

/-- **C9.** Driver trace shape satisfies the prover's precondition: the
flattened `values` vector has exactly `64 * NUM_FIBONACCI_COLS` elements, the
`RowMajorMatrix` is built with width `NUM_FIBONACCI_COLS`, the resulting
height is `64 = 2^6` (a power of two) matching the AIR's column count, and
the prover's shape-validation error branch is unreachable for this input:
`prove` on the driver's trace never returns `ShapeError`. -/
theorem driver_trace_shape_ok (cfg : FriConfig) (perm : Permutation)
    (pubs : List F) :
    fibTrace.values.length = 64 * NUM_FIBONACCI_COLS ∧
    fibTrace.width = NUM_FIBONACCI_COLS ∧
    fibTrace.height = 64 ∧
    (64 : ℕ) = 2 ^ 6 ∧
    fibTrace.values = fibTraceRowsF.flatten ∧
    FibonacciAir.width = NUM_FIBONACCI_COLS ∧
    traceShapeOk FibonacciAir fibTraceRowsF = true ∧
    prove cfg FibonacciAir perm fibTraceRowsF pubs ≠
      Except.error ShapeError.badShape := by
  have hshape : traceShapeOk FibonacciAir fibTraceRowsF = true := by decide
  refine ⟨by decide, rfl, by decide, by decide, ?_, rfl, hshape, ?_⟩
  · rw [fibTrace, fibTraceRowsF]
    exact List.map_flatten from_canonical_u64 fibTraceRows
  · rw [prove, hshape]
    simp

def tinyCfg : FriConfig := { log_blowup := 1, num_queries := 1, proof_of_work_bits := 1 }
def tinyTrace : List (List F) := [[1, 1, 2], [1, 2, 3]]

/-! ## Helper lemmas towards completeness (C1) -/

theorem sampleN_length (perm : Permutation) :
    ∀ (n : ℕ) (ch : DuplexChallenger), (sampleN perm n ch).1.length = n := by
  intro n
  induction n with
  | zero => intro ch; rfl
  | succ m ih => intro ch; simp [sampleN, ih]

theorem queryIndices_length (perm : Permutation) (ch : DuplexChallenger)
    (count halfN : ℕ) : (queryIndices perm ch count halfN).length = count := by
  rw [queryIndices, List.length_map, sampleN_length]

theorem queryIndices_lt (perm : Permutation) (ch : DuplexChallenger)
    (count halfN : ℕ) (hpos : 0 < halfN) :
    ∀ p ∈ queryIndices perm ch count halfN, p < halfN := by
  intro p hp
  obtain ⟨x, _, rfl⟩ := List.mem_map.mp hp
  exact Nat.mod_lt _ hpos

theorem getD_map {α β : Type} (f : α → β) (l : List α) (i : ℕ) (hi : i < l.length)
    (dα : α) (dβ : β) : (l.map f).getD i dβ = f (l.getD i dα) := by
  rw [List.getD_eq_getElem _ _ (by simpa using hi), List.getD_eq_getElem _ _ hi,
    List.getElem_map]

theorem getD_range_map {α : Type} (f : ℕ → α) (d : α) (n j : ℕ) (h : j < n) :
    ((List.range n).map f).getD j d = f j := by
  rw [getD_map f _ j (by simpa using h) 0 d, List.getD_eq_getElem _ _ (by simpa using h)]
  simp

theorem getD_take (l : List F) (h i : ℕ) (hi : i < h) :
    (l.take h).getD i 0 = l.getD i 0 := by
  rw [List.getD_eq_getElem?_getD, List.getD_eq_getElem?_getD, List.getElem?_take]
  simp [hi]

theorem getD_drop (l : List F) (h i : ℕ) :
    (l.drop h).getD i 0 = l.getD (h + i) 0 := by
  rw [List.getD_eq_getElem?_getD, List.getD_eq_getElem?_getD, List.getElem?_drop]

theorem getD_zipWith {α : Type} (f : F → F → α) (dα : α) :
    ∀ (as bs : List F) (i : ℕ), i < as.length → i < bs.length →
      (List.zipWith f as bs).getD i dα = f (as.getD i 0) (bs.getD i 0) := by
  intro as
  induction as with
  | nil => intro bs i h; simp at h
  | cons a as ih =>
    intro bs i h1 h2
    cases bs with
    | nil => simp at h2
    | cons b bs =>
      cases i with
      | zero => rfl
      | succ j =>
        simp only [List.zipWith_cons_cons, List.getD_cons_succ]
        exact ih bs j (by simpa using h1) (by simpa using h2)

theorem zipWith3F_getD (f : F → F → F → F) :
    ∀ (as bs cs : List F) (i : ℕ), i < as.length → i < bs.length → i < cs.length →
      (zipWith3F f as bs cs).getD i 0 = f (as.getD i 0) (bs.getD i 0) (cs.getD i 0) := by
  intro as
  induction as with
  | nil => intro bs cs i h; simp at h
  | cons a as ih =>
    intro bs cs i h1 h2 h3
    cases bs with
    | nil => simp at h2
    | cons b bs =>
      cases cs with
      | nil => simp at h3
      | cons c cs =>
        cases i with
        | zero => rfl
        | succ j =>
          show (zipWith3F f as bs cs).getD j 0 = _
          exact ih bs cs j (by simpa using h1) (by simpa using h2) (by simpa using h3)

theorem pairRowsOf_length (v : List F) : (pairRowsOf v).length = v.length / 2 := by
  rw [pairRowsOf, List.length_zipWith, List.length_take, List.length_drop]
  omega

theorem pairRowsOf_getD (v : List F) (h i : ℕ) (hv : v.length = 2 * h) (hi : i < h) :
    (pairRowsOf v).getD i [] = [v.getD i 0, v.getD (i + h) 0] := by
  rw [pairRowsOf, hv]
  have h2 : 2 * h / 2 = h := by omega
  rw [h2, getD_zipWith _ _ _ _ i (by rw [List.length_take]; omega)
    (by rw [List.length_drop]; omega), getD_take _ _ _ hi, getD_drop]
  rw [Nat.add_comm h i]

theorem foldOnce_getD (β : F) (v pts : List F) (h i : ℕ) (hv : v.length = 2 * h)
    (hp : h ≤ pts.length) (hi : i < h) :
    (foldOnce β v pts).getD i 0 =
      foldPair β (pts.getD i 0) (v.getD i 0) (v.getD (i + h) 0) := by
  rw [foldOnce, hv]
  have h2 : 2 * h / 2 = h := by omega
  rw [h2, zipWith3F_getD _ _ _ _ i (by rw [List.length_take]; omega)
    (by rw [List.length_drop]; omega) (by omega), getD_take _ _ _ hi, getD_drop]
  rw [Nat.add_comm h i]

theorem zip_map_all {α β : Type} (l : List α) (f : α → β) (g : α × β → Bool) :
    (List.zip l (l.map f)).all g = l.all fun p => g (p, f p) := by
  induction l with
  | nil => rfl
  | cons a l ih => simp [ih]

theorem combineWith_hom {R S : Type} [CommRing R] [CommRing S] (ψ : R →+* S)
    (α : R) (l : List R) : ψ (combineWith α l) = combineWith (ψ α) (l.map ψ) := by
  induction l with
  | nil => simp [combineWith]
  | cons v l ih =>
    have ih2 : ψ (combineWith α l) = combineWith (ψ α) (l.map ψ) := ih
    simp only [combineWith, List.foldr_cons, List.map_cons, map_add, map_mul]
    rw [show (l.foldr (fun v acc => v + α * acc) 0 : R) = combineWith α l from rfl, ih2]
    rfl

theorem combineWith_eq_zero {R : Type} [CommRing R] (α : R) (l : List R)
    (h : ∀ v ∈ l, v = 0) : combineWith α l = 0 := by
  induction l with
  | nil => rfl
  | cons v l ih =>
    have hstep : combineWith α (v :: l) = v + α * combineWith α l := rfl
    rw [hstep, h v (by simp), ih fun x hx => h x (by simp [hx])]
    ring

theorem natDegree_combineWith_le (α : F) (l : List (Polynomial F)) (D : ℕ)
    (h : ∀ p ∈ l, p.natDegree ≤ D) :
    (combineWith (Polynomial.C α) l).natDegree ≤ D := by
  induction l with
  | nil => simp [combineWith]
  | cons v l ih =>
    have hstep : combineWith (Polynomial.C α) (v :: l) =
        v + Polynomial.C α * combineWith (Polynomial.C α) l := rfl
    rw [hstep]
    refine le_trans (Polynomial.natDegree_add_le _ _) (max_le (h v (by simp)) ?_)
    exact le_trans (Polynomial.natDegree_C_mul_le _ _)
      (ih fun p hp => h p (by simp [hp]))

theorem powersAux_eq_map (x : F) :
    ∀ (n : ℕ) (acc : F), powersAux x acc n = (List.range n).map fun i => acc * x ^ i := by
  intro n
  induction n with
  | zero => intro acc; rfl
  | succ m ih =>
    intro acc
    rw [List.range_succ_eq_map, powersAux, ih (acc * x), List.map_cons, List.map_map]
    congr 1
    · simp
    · apply List.map_congr_left
      intro i _
      simp only [Function.comp_apply, Nat.succ_eq_add_one, pow_succ]
      ring

theorem powersOf_eq_map (x : F) (n : ℕ) :
    powersOf x n = (List.range n).map fun i => x ^ i := by
  rw [powersOf, powersAux_eq_map]
  apply List.map_congr_left
  intro i _
  rw [one_mul]

theorem powersOf_nodup (x : F) (n : ℕ) (h : n ≤ orderOf x) : (powersOf x n).Nodup := by
  rw [powersOf_eq_map]
  apply List.Nodup.map_on ?_ (List.nodup_range n)
  intro i hi j hj hij
  rw [List.mem_range] at hi hj
  exact pow_injOn_Iio_orderOf (Set.mem_Iio.mpr (by omega)) (Set.mem_Iio.mpr (by omega)) hij

theorem basePtsOf_length (k : ℕ) : (basePtsOf k).length = 2 ^ k :=
  powersOf_length _ _

theorem basePtsOf_getD (k i : ℕ) (hi : i < 2 ^ k) :
    (basePtsOf k).getD i 0 = root2 k ^ i :=
  powersOf_getD _ _ _ hi

theorem basePtsOf_nodup (k : ℕ) (hk : k ≤ 32) : (basePtsOf k).Nodup :=
  powersOf_nodup _ _ (by rw [orderOf_root2 k hk])

theorem extPtsOf_length (k : ℕ) : (extPtsOf k).length = 2 ^ (k + 1) := by
  rw [extPtsOf, List.length_map, powersOf_length]

theorem extPtsOf_getD (k i : ℕ) (hi : i < 2 ^ (k + 1)) :
    (extPtsOf k).getD i 0 = 7 * root2 (k + 1) ^ i := by
  rw [extPtsOf, getD_map _ _ i (by rw [powersOf_length]; exact hi) 0 0,
    powersOf_getD _ _ _ hi]

theorem extPtsOf_nodup (k : ℕ) (hk : k + 1 ≤ 32) : (extPtsOf k).Nodup := by
  rw [extPtsOf]
  refine List.Nodup.map ?_ (powersOf_nodup _ _ (by rw [orderOf_root2 (k + 1) hk]))
  intro a b hab
  have h7 : (7 : F) ≠ 0 := by decide
  exact mul_left_cancel₀ h7 hab

/-- Shifting an extended-domain index by 2 multiplies the point by the trace
domain's generator `ω = root2 k`. -/
theorem ext_point_shift (k j : ℕ) (hk : k + 1 ≤ 32) :
    (7 : F) * root2 (k + 1) ^ ((j + 2) % 2 ^ (k + 1)) =
      root2 k * (7 * root2 (k + 1) ^ j) := by
  have hord : orderOf (root2 (k + 1)) = 2 ^ (k + 1) := orderOf_root2 _ hk
  have h1 : root2 (k + 1) ^ ((j + 2) % 2 ^ (k + 1)) = root2 (k + 1) ^ (j + 2) := by
    rw [← hord]
    exact pow_mod_orderOf _ _
  rw [h1, pow_add, pow_two, root2_sq k hk]
  ring

theorem squareFirstHalf_getD (pts : List F) (i : ℕ) (hi : i < pts.length / 2) :
    (squareFirstHalf pts).getD i 0 = pts.getD i 0 * pts.getD i 0 := by
  rw [squareFirstHalf, getD_map _ _ i (by rw [List.length_take]; omega) 0 0,
    getD_take _ _ _ (by omega)]

theorem domAt_length (pts : List F) (m : ℕ) (hp : pts.length = 2 ^ m) :
    ∀ r, r ≤ m → (domAt pts r).length = 2 ^ (m - r) := by
  intro r
  induction r with
  | zero => intro _; simpa [domAt] using hp
  | succ j ih =>
    intro hr
    show (squareFirstHalf (domAt pts j)).length = _
    rw [squareFirstHalf_length, ih (by omega)]
    have : (2 : ℕ) ^ (m - j) = 2 ^ (m - (j + 1)) * 2 := by
      rw [← pow_succ]
      congr 1
      omega
    omega

theorem domAt_extPts_getD (k : ℕ) :
    ∀ (r i : ℕ), r ≤ k + 1 → i < 2 ^ (k + 1 - r) →
      (domAt (extPtsOf k) r).getD i 0 = (7 * root2 (k + 1) ^ i) ^ 2 ^ r := by
  intro r
  induction r with
  | zero =>
    intro i _ hi
    rw [domAt, pow_zero, pow_one]
    exact extPtsOf_getD k i (by simpa using hi)
  | succ j ih =>
    intro i hr hi
    show (squareFirstHalf (domAt (extPtsOf k) j)).getD i 0 = _
    have hlen : (domAt (extPtsOf k) j).length = 2 ^ (k + 1 - j) :=
      domAt_length _ (k + 1) (extPtsOf_length k) j (by omega)
    have hij : i < 2 ^ (k + 1 - j) / 2 := by
      have : (2 : ℕ) ^ (k + 1 - j) = 2 ^ (k + 1 - (j + 1)) * 2 := by
        rw [← pow_succ]
        congr 1
        omega
      omega
    rw [squareFirstHalf_getD _ i (by rw [hlen]; exact hij),
      ih i (by omega) (by omega)]
    rw [← pow_add, pow_succ]
    congr 1
    omega

theorem domAt_succ_comm (q : List F) :
    ∀ r, domAt q (r + 1) = domAt (squareFirstHalf q) r := by
  intro r
  induction r with
  | zero => rfl
  | succ j ihj =>
    show squareFirstHalf (domAt q (j + 1)) = _
    rw [ihj]
    rfl

theorem commitPhase_final_domain (perm : Permutation) :
    ∀ (r d : ℕ) (v pts : List F) (ch : DuplexChallenger),
      (commitPhase perm r d v pts ch).2.2.1 = domAt pts r := by
  intro r
  induction r with
  | zero => intro d v pts ch; rfl
  | succ r ih =>
    intro d v pts ch
    show (commitPhase perm r (d - 1) _ (squareFirstHalf pts) _).2.2.1 = _
    rw [ih, domAt_succ_comm]

/-- Unfold one passing step of the FRI query walk. -/
theorem friCheckAux_cons_true (perm : Permutation) (kk : ℕ) (root : List F)
    (rbeta : F) (dom : List F) (pair : List F) (path : List (List F))
    (rest : List (List F × F × List F × (List F × List (List F))))
    (r prevIdx : ℕ) (exp : F)
    (hmv : merkleVerify perm root (prevIdx % 2 ^ (kk - r)) pair path = true)
    (hcomp : pair.getD (prevIdx / 2 ^ (kk - r)) 0 = exp)
    (hlen : pair.length = 2) :
    friCheckAux perm kk ((root, rbeta, dom, (pair, path)) :: rest) r prevIdx exp =
      friCheckAux perm kk rest (r + 1) (prevIdx % 2 ^ (kk - r))
        (foldPair rbeta (dom.getD (prevIdx % 2 ^ (kk - r)) 0) (pair.getD 0 0)
          (pair.getD 1 0)) := by
  have hcond : (merkleVerify perm root (prevIdx % 2 ^ (kk - r)) pair path &&
      decide (pair.getD (prevIdx / 2 ^ (kk - r)) 0 = exp) &&
      decide (pair.length = 2)) = true := by
    rw [hmv, hcomp, hlen]
    simp
  show (if merkleVerify perm root (prevIdx % 2 ^ (kk - r)) pair path &&
      decide (pair.getD (prevIdx / 2 ^ (kk - r)) 0 = exp) &&
      decide (pair.length = 2) then
        friCheckAux perm kk rest (r + 1) (prevIdx % 2 ^ (kk - r))
          (foldPair rbeta (dom.getD (prevIdx % 2 ^ (kk - r)) 0) (pair.getD 0 0)
            (pair.getD 1 0))
      else none) = _
  rw [hcond]
  rfl

set_option maxHeartbeats 2000000 in
/-- Completeness of the FRI query walk over rounds `rr, rr+1, ...`: on honest
round data, every Merkle check and fold-consistency check passes, and the walk
returns the query's residual index and the final codeword's value there. -/
theorem friCheckAux_complete (perm : Permutation) (kk p : ℕ) :
    ∀ (r : ℕ) (rr : ℕ) (v pts : List F) (ch : DuplexChallenger),
      1 ≤ rr → rr + r ≤ kk + 1 →
      v.length = 2 ^ (kk + 1 - rr) →
      pts.length = 2 ^ (kk + 1 - rr) →
      friCheckAux perm kk
        (zip4 ((commitPhase perm r (kk - rr) v pts ch).1.map FriRound.root)
          ((commitPhase perm r (kk - rr) v pts ch).1.map FriRound.beta)
          (domsFrom pts r)
          (friPairsFor perm kk (commitPhase perm r (kk - rr) v pts ch).1 rr p))
        rr (p % 2 ^ (kk + 1 - rr)) (v.getD (p % 2 ^ (kk + 1 - rr)) 0) =
      some (p % 2 ^ (kk + 1 - rr - r),
        (commitPhase perm r (kk - rr) v pts ch).2.1.getD
          (p % 2 ^ (kk + 1 - rr - r)) 0) := by
  intro r
  induction r with
  | zero =>
    intro rr v pts ch h1 h2 hv hp
    rfl
  | succ r ih =>
    intro rr v pts ch h1 h2 hv hp
    have hrrkk : rr ≤ kk := by omega
    have hsplit : kk + 1 - rr = (kk - rr) + 1 := by omega
    have hv2 : v.length = 2 * 2 ^ (kk - rr) := by
      rw [hv, hsplit, pow_succ]
      ring
    have hp2 : pts.length = 2 * 2 ^ (kk - rr) := by
      rw [hp, hsplit, pow_succ]
      ring
    have hhalfpos : (0 : ℕ) < 2 ^ (kk - rr) := by positivity
    have hprevlt : p % 2 ^ (kk + 1 - rr) < 2 * 2 ^ (kk - rr) := by
      have := Nat.mod_lt p (show 0 < 2 ^ (kk + 1 - rr) by positivity)
      rw [hsplit, pow_succ] at this
      omega
    have hpr : p % 2 ^ (kk + 1 - rr) % 2 ^ (kk - rr) = p % 2 ^ (kk - rr) :=
      Nat.mod_mod_of_dvd p (pow_dvd_pow 2 (by omega))
    have hprlt : p % 2 ^ (kk - rr) < 2 ^ (kk - rr) := Nat.mod_lt p hhalfpos
    have hrows_len : (pairRowsOf v).length = 2 ^ (kk - rr) := by
      rw [pairRowsOf_length, hv2]
      omega
    have hpair : (pairRowsOf v).getD (p % 2 ^ (kk - rr)) [] =
        [v.getD (p % 2 ^ (kk - rr)) 0,
         v.getD (p % 2 ^ (kk - rr) + 2 ^ (kk - rr)) 0] :=
      pairRowsOf_getD v (2 ^ (kk - rr)) (p % 2 ^ (kk - rr)) hv2 hprlt
    have hmv : merkleVerify perm (merkleRoot perm (kk - rr) (pairRowsOf v))
        (p % 2 ^ (kk + 1 - rr) % 2 ^ (kk - rr))
        ((pairRowsOf v).getD (p % 2 ^ (kk - rr)) [])
        (merklePath perm (kk - rr) (pairRowsOf v) (p % 2 ^ (kk - rr))) = true := by
      rw [hpr, merkleVerify, decide_eq_true_iff]
      exact merkle_open_correct perm (kk - rr) (pairRowsOf v) (p % 2 ^ (kk - rr))
        hrows_len hprlt
    have hcomp : ((pairRowsOf v).getD (p % 2 ^ (kk - rr)) []).getD
        (p % 2 ^ (kk + 1 - rr) / 2 ^ (kk - rr)) 0 =
        v.getD (p % 2 ^ (kk + 1 - rr)) 0 := by
      rw [hpair]
      rcases Nat.lt_or_ge (p % 2 ^ (kk + 1 - rr)) (2 ^ (kk - rr)) with hc | hc
      · have hc0 : p % 2 ^ (kk + 1 - rr) / 2 ^ (kk - rr) = 0 := Nat.div_eq_of_lt hc
        have hpi : p % 2 ^ (kk + 1 - rr) = p % 2 ^ (kk - rr) := by
          rw [← hpr]
          exact (Nat.mod_eq_of_lt hc).symm
        rw [hc0, ← hpi]
        rfl
      · have hc1 : p % 2 ^ (kk + 1 - rr) / 2 ^ (kk - rr) = 1 :=
          Nat.div_eq_of_lt_le (by omega) (by omega)
        have hpi : p % 2 ^ (kk + 1 - rr) = p % 2 ^ (kk - rr) + 2 ^ (kk - rr) := by
          have hsub : p % 2 ^ (kk + 1 - rr) - 2 ^ (kk - rr) < 2 ^ (kk - rr) := by
            omega
          have hmod : p % 2 ^ (kk + 1 - rr) % 2 ^ (kk - rr) =
              p % 2 ^ (kk + 1 - rr) - 2 ^ (kk - rr) := by
            conv_lhs => rw [show p % 2 ^ (kk + 1 - rr) =
              (p % 2 ^ (kk + 1 - rr) - 2 ^ (kk - rr)) + 1 * 2 ^ (kk - rr) by omega]
            rw [Nat.add_mul_mod_self_right]
            exact Nat.mod_eq_of_lt hsub
          rw [hpr] at hmod
          omega
        rw [hc1, hpi]
        rfl
    have hlen2 : ((pairRowsOf v).getD (p % 2 ^ (kk - rr)) []).length = 2 := by
      rw [hpair]
      rfl
    refine Eq.trans (friCheckAux_cons_true perm kk
      (merkleRoot perm (kk - rr) (pairRowsOf v))
      (sample perm (observeList perm ch (merkleRoot perm (kk - rr) (pairRowsOf v)))).1 pts ((pairRowsOf v).getD (p % 2 ^ (kk - rr)) [])
      (merklePath perm (kk - rr) (pairRowsOf v) (p % 2 ^ (kk - rr)))
      (zip4 ((commitPhase perm r (kk - (rr + 1)) (foldOnce (sample perm (observeList perm ch (merkleRoot perm (kk - rr) (pairRowsOf v)))).1 v pts) (squareFirstHalf pts) (sample perm (observeList perm ch (merkleRoot perm (kk - rr) (pairRowsOf v)))).2).1.map FriRound.root)
        ((commitPhase perm r (kk - (rr + 1)) (foldOnce (sample perm (observeList perm ch (merkleRoot perm (kk - rr) (pairRowsOf v)))).1 v pts) (squareFirstHalf pts) (sample perm (observeList perm ch (merkleRoot perm (kk - rr) (pairRowsOf v)))).2).1.map FriRound.beta)
        (domsFrom (squareFirstHalf pts) r)
        (friPairsFor perm kk (commitPhase perm r (kk - (rr + 1)) (foldOnce (sample perm (observeList perm ch (merkleRoot perm (kk - rr) (pairRowsOf v)))).1 v pts) (squareFirstHalf pts) (sample perm (observeList perm ch (merkleRoot perm (kk - rr) (pairRowsOf v)))).2).1 (rr + 1) p))
      rr (p % 2 ^ (kk + 1 - rr)) (v.getD (p % 2 ^ (kk + 1 - rr)) 0)
      hmv hcomp hlen2) ?_
    have hfold : foldPair (sample perm (observeList perm ch (merkleRoot perm (kk - rr) (pairRowsOf v)))).1
        (pts.getD (p % 2 ^ (kk - rr)) 0)
        (((pairRowsOf v).getD (p % 2 ^ (kk - rr)) []).getD 0 0)
        (((pairRowsOf v).getD (p % 2 ^ (kk - rr)) []).getD 1 0) =
        (foldOnce (sample perm (observeList perm ch (merkleRoot perm (kk - rr) (pairRowsOf v)))).1 v pts).getD (p % 2 ^ (kk - rr)) 0 := by
      rw [hpair,
        foldOnce_getD _ v pts (2 ^ (kk - rr)) (p % 2 ^ (kk - rr)) hv2
          (by omega) hprlt]
      rfl
    rw [hpr, hfold]
    have hihlen : (foldOnce (sample perm (observeList perm ch (merkleRoot perm (kk - rr) (pairRowsOf v)))).1 v pts).length = 2 ^ (kk + 1 - (rr + 1)) := by
      rw [foldOnce_length _ _ _ (by omega), hv2]
      have he : kk + 1 - (rr + 1) = kk - rr := by omega
      rw [he]
      omega
    have hihpts : (squareFirstHalf pts).length = 2 ^ (kk + 1 - (rr + 1)) := by
      rw [squareFirstHalf_length, hp2]
      have he : kk + 1 - (rr + 1) = kk - rr := by omega
      rw [he]
      omega
    have hidx : p % 2 ^ (kk - rr) = p % 2 ^ (kk + 1 - (rr + 1)) := by
      rw [show kk - rr = kk + 1 - (rr + 1) from by omega]
    rw [hidx]
    rw [show kk + 1 - rr - (r + 1) = kk + 1 - (rr + 1) - r by omega]
    exact ih (rr + 1) (foldOnce (sample perm (observeList perm ch (merkleRoot perm (kk - rr) (pairRowsOf v)))).1 v pts) (squareFirstHalf pts) (sample perm (observeList perm ch (merkleRoot perm (kk - rr) (pairRowsOf v)))).2 (by omega) (by omega) hihlen hihpts

/-! ## Completeness (C1): named prover-run components

Each definition below names one `let`-bound intermediate of `proverRun`, with
the trace's log-height `k` as an explicit parameter; each is definitionally
equal to the corresponding field of `proverRun` at `k = myLog2 trace.length`
(checked by `proverRun_eq_components`). -/

def colsOf (air : Air) (trace : List (List F)) : List (List F) :=
  (List.range air.width).map fun m => trace.map fun r => r.getD m 0

def tpolysOf (air : Air) (trace : List (List F)) (k : ℕ) : List (List F) :=
  (colsOf air trace).map fun c => lagrangeInterp (basePtsOf k) c

def traceExtOf (air : Air) (trace : List (List F)) (k : ℕ) : List (List F) :=
  (extPtsOf k).map fun x => (tpolysOf air trace k).map fun p => evalPoly p x

def traceRootOf (perm : Permutation) (air : Air) (trace : List (List F)) (k : ℕ) :
    List F :=
  merkleRoot perm (k + 1) (traceExtOf air trace k)

def alphaOf (perm : Permutation) (pubs : List F) (air : Air)
    (trace : List (List F)) (k : ℕ) : F :=
  (challengesPhase1 perm pubs (traceRootOf perm air trace k)).1

def omegaLastOf (k : ℕ) : F := powF (root2 k) (2 ^ k - 1)

def cvecOf (perm : Permutation) (pubs : List F) (air : Air)
    (trace : List (List F)) (k : ℕ) : List F :=
  (List.range (2 ^ (k + 1))).map fun j =>
    constraintVal air (alphaOf perm pubs air trace k) (omegaLastOf k)
      (traceExtOf air trace k) (2 ^ (k + 1)) j ((extPtsOf k).getD j 0)

def qvecOf (perm : Permutation) (pubs : List F) (air : Air)
    (trace : List (List F)) (k : ℕ) : List F :=
  (List.range (2 ^ (k + 1))).map fun j =>
    (cvecOf perm pubs air trace k).getD j 0 *
      invF (evalZH k ((extPtsOf k).getD j 0))

def qRowsOf (perm : Permutation) (pubs : List F) (air : Air)
    (trace : List (List F)) (k : ℕ) : List (List F) :=
  (qvecOf perm pubs air trace k).map fun v => [v]

def quotRootOf (perm : Permutation) (pubs : List F) (air : Air)
    (trace : List (List F)) (k : ℕ) : List F :=
  merkleRoot perm (k + 1) (qRowsOf perm pubs air trace k)

def s2Of (perm : Permutation) (pubs : List F) (air : Air)
    (trace : List (List F)) (k : ℕ) : Fext × DuplexChallenger :=
  challengesPhase2 perm (challengesPhase1 perm pubs (traceRootOf perm air trace k)).2
    (quotRootOf perm pubs air trace k)

def zetaOf (perm : Permutation) (pubs : List F) (air : Air)
    (trace : List (List F)) (k : ℕ) : Fext :=
  (s2Of perm pubs air trace k).1

def oodTraceOf (perm : Permutation) (pubs : List F) (air : Air)
    (trace : List (List F)) (k : ℕ) : List Fext :=
  (tpolysOf air trace k).map fun p => evalPolyExt p (zetaOf perm pubs air trace k)

def oodTraceNextOf (perm : Permutation) (pubs : List F) (air : Air)
    (trace : List (List F)) (k : ℕ) : List Fext :=
  (tpolysOf air trace k).map fun p =>
    evalPolyExt p (FextOfF (root2 k) * zetaOf perm pubs air trace k)

def oodQuotOf (perm : Permutation) (pubs : List F) (air : Air)
    (trace : List (List F)) (k : ℕ) : Fext :=
  evalPolyExt (lagrangeInterp (extPtsOf k) (qvecOf perm pubs air trace k))
    (zetaOf perm pubs air trace k)

def s3Of (perm : Permutation) (pubs : List F) (air : Air)
    (trace : List (List F)) (k : ℕ) : F × DuplexChallenger :=
  challengesPhase3 perm (s2Of perm pubs air trace k).2
    (flattenExt (oodTraceOf perm pubs air trace k) ++
      flattenExt (oodTraceNextOf perm pubs air trace k) ++
      [(oodQuotOf perm pubs air trace k).a, (oodQuotOf perm pubs air trace k).b])

def betaOf (perm : Permutation) (pubs : List F) (air : Air)
    (trace : List (List F)) (k : ℕ) : F :=
  (s3Of perm pubs air trace k).1

def combinedOf (perm : Permutation) (pubs : List F) (air : Air)
    (trace : List (List F)) (k : ℕ) : List F :=
  (List.range (2 ^ (k + 1))).map fun j =>
    combineWith (betaOf perm pubs air trace k)
      ((traceExtOf air trace k).getD j [] ++
        [(qvecOf perm pubs air trace k).getD j 0])

def cpOfK (cfg : FriConfig) (perm : Permutation) (pubs : List F) (air : Air)
    (trace : List (List F)) (k : ℕ) :
    List FriRound × List F × List F × DuplexChallenger :=
  commitPhase perm ((k + 1) - cfg.log_blowup) k (combinedOf perm pubs air trace k)
    (extPtsOf k) (s3Of perm pubs air trace k).2

def finalPolyOf (cfg : FriConfig) (perm : Permutation) (pubs : List F) (air : Air)
    (trace : List (List F)) (k : ℕ) : List F :=
  lagrangeInterp (cpOfK cfg perm pubs air trace k).2.2.1
    (cpOfK cfg perm pubs air trace k).2.1

def chAfterFinalOf (cfg : FriConfig) (perm : Permutation) (pubs : List F)
    (air : Air) (trace : List (List F)) (k : ℕ) : DuplexChallenger :=
  observeList perm (cpOfK cfg perm pubs air trace k).2.2.2
    (finalPolyOf cfg perm pubs air trace k)

theorem proverRun_eq_components (cfg : FriConfig) (air : Air) (perm : Permutation)
    (trace : List (List F)) (pubs : List F) :
    proverRun cfg air perm trace pubs =
      { k := myLog2 trace.length
        alpha := alphaOf perm pubs air trace (myLog2 trace.length)
        zeta := zetaOf perm pubs air trace (myLog2 trace.length)
        beta := betaOf perm pubs air trace (myLog2 trace.length)
        traceExt := traceExtOf air trace (myLog2 trace.length)
        traceRoot := traceRootOf perm air trace (myLog2 trace.length)
        qvec := qvecOf perm pubs air trace (myLog2 trace.length)
        qRows := qRowsOf perm pubs air trace (myLog2 trace.length)
        quotRoot := quotRootOf perm pubs air trace (myLog2 trace.length)
        oodTrace := oodTraceOf perm pubs air trace (myLog2 trace.length)
        oodTraceNext := oodTraceNextOf perm pubs air trace (myLog2 trace.length)
        oodQuot := oodQuotOf perm pubs air trace (myLog2 trace.length)
        combined := combinedOf perm pubs air trace (myLog2 trace.length)
        friRounds := (cpOfK cfg perm pubs air trace (myLog2 trace.length)).1
        finalCodeword := (cpOfK cfg perm pubs air trace (myLog2 trace.length)).2.1
        finalDomain := (cpOfK cfg perm pubs air trace (myLog2 trace.length)).2.2.1
        finalPoly := finalPolyOf cfg perm pubs air trace (myLog2 trace.length)
        chAfterFinal := chAfterFinalOf cfg perm pubs air trace (myLog2 trace.length) } :=
  rfl

theorem colsOf_length (air : Air) (trace : List (List F)) :
    (colsOf air trace).length = air.width := by
  rw [colsOf, List.length_map, List.length_range]

theorem colsOf_getD (air : Air) (trace : List (List F)) (v : ℕ)
    (hv : v < air.width) :
    (colsOf air trace).getD v [] = trace.map fun r => r.getD v 0 :=
  getD_range_map _ _ _ v hv

theorem tpolysOf_length (air : Air) (trace : List (List F)) (k : ℕ) :
    (tpolysOf air trace k).length = air.width := by
  rw [tpolysOf, List.length_map, colsOf_length]

theorem tpolysOf_getD (air : Air) (trace : List (List F)) (k v : ℕ)
    (hv : v < air.width) :
    (tpolysOf air trace k).getD v [] =
      lagrangeInterp (basePtsOf k) (trace.map fun r => r.getD v 0) := by
  rw [tpolysOf, getD_map _ _ v (by rw [colsOf_length]; exact hv) [] [],
    colsOf_getD air trace v hv]

theorem tpolysOf_getD_default (air : Air) (trace : List (List F)) (k v : ℕ)
    (hv : air.width ≤ v) : (tpolysOf air trace k).getD v [] = [] :=
  List.getD_eq_default _ _ (by rw [tpolysOf_length]; exact hv)

theorem tpolysOf_getD_len_le (air : Air) (trace : List (List F)) (k v : ℕ) :
    ((tpolysOf air trace k).getD v []).length ≤ 2 ^ k := by
  rcases Nat.lt_or_ge v air.width with hv | hv
  · rw [tpolysOf_getD air trace k v hv]
    exact le_trans (lagrangeInterp_length _ _) (by rw [basePtsOf_length])
  · rw [tpolysOf_getD_default air trace k v hv]
    positivity

theorem traceExtOf_length (air : Air) (trace : List (List F)) (k : ℕ) :
    (traceExtOf air trace k).length = 2 ^ (k + 1) := by
  rw [traceExtOf, List.length_map, extPtsOf_length]

theorem traceExtOf_getD (air : Air) (trace : List (List F)) (k j : ℕ)
    (hj : j < 2 ^ (k + 1)) :
    (traceExtOf air trace k).getD j [] =
      (tpolysOf air trace k).map fun p => evalPoly p ((extPtsOf k).getD j 0) := by
  rw [traceExtOf, getD_map _ _ j (by rw [extPtsOf_length]; exact hj) 0 []]

theorem traceExtOf_entry (air : Air) (trace : List (List F)) (k j v : ℕ)
    (hj : j < 2 ^ (k + 1)) :
    ((traceExtOf air trace k).getD j []).getD v 0 =
      evalPoly ((tpolysOf air trace k).getD v []) ((extPtsOf k).getD j 0) := by
  rw [traceExtOf_getD air trace k j hj]
  rcases Nat.lt_or_ge v (tpolysOf air trace k).length with hv | hv
  · rw [getD_map _ _ v hv []]
  · rw [List.getD_eq_default _ _ (by rw [List.length_map]; exact hv),
      List.getD_eq_default _ _ hv]
    rfl

theorem cvecOf_length (perm : Permutation) (pubs : List F) (air : Air)
    (trace : List (List F)) (k : ℕ) :
    (cvecOf perm pubs air trace k).length = 2 ^ (k + 1) := by
  rw [cvecOf, List.length_map, List.length_range]

theorem cvecOf_getD (perm : Permutation) (pubs : List F) (air : Air)
    (trace : List (List F)) (k j : ℕ) (hj : j < 2 ^ (k + 1)) :
    (cvecOf perm pubs air trace k).getD j 0 =
      constraintVal air (alphaOf perm pubs air trace k) (omegaLastOf k)
        (traceExtOf air trace k) (2 ^ (k + 1)) j ((extPtsOf k).getD j 0) :=
  getD_range_map _ _ _ j hj

theorem qvecOf_length (perm : Permutation) (pubs : List F) (air : Air)
    (trace : List (List F)) (k : ℕ) :
    (qvecOf perm pubs air trace k).length = 2 ^ (k + 1) := by
  rw [qvecOf, List.length_map, List.length_range]

theorem qvecOf_getD (perm : Permutation) (pubs : List F) (air : Air)
    (trace : List (List F)) (k j : ℕ) (hj : j < 2 ^ (k + 1)) :
    (qvecOf perm pubs air trace k).getD j 0 =
      (cvecOf perm pubs air trace k).getD j 0 *
        invF (evalZH k ((extPtsOf k).getD j 0)) :=
  getD_range_map _ _ _ j hj

theorem qRowsOf_length (perm : Permutation) (pubs : List F) (air : Air)
    (trace : List (List F)) (k : ℕ) :
    (qRowsOf perm pubs air trace k).length = 2 ^ (k + 1) := by
  rw [qRowsOf, List.length_map, qvecOf_length]

theorem qRowsOf_getD (perm : Permutation) (pubs : List F) (air : Air)
    (trace : List (List F)) (k j : ℕ) (hj : j < 2 ^ (k + 1)) :
    (qRowsOf perm pubs air trace k).getD j [] =
      [(qvecOf perm pubs air trace k).getD j 0] := by
  rw [qRowsOf, getD_map _ _ j (by rw [qvecOf_length]; exact hj) 0 []]

theorem combinedOf_length (perm : Permutation) (pubs : List F) (air : Air)
    (trace : List (List F)) (k : ℕ) :
    (combinedOf perm pubs air trace k).length = 2 ^ (k + 1) := by
  rw [combinedOf, List.length_map, List.length_range]

theorem combinedOf_getD (perm : Permutation) (pubs : List F) (air : Air)
    (trace : List (List F)) (k j : ℕ) (hj : j < 2 ^ (k + 1)) :
    (combinedOf perm pubs air trace k).getD j 0 =
      combineWith (betaOf perm pubs air trace k)
        ((traceExtOf air trace k).getD j [] ++
          [(qvecOf perm pubs air trace k).getD j 0]) :=
  getD_range_map _ _ _ j hj

/-! ## Completeness (C1): the constraint polynomial and the quotient

The combined constraint polynomial `Cp`, its vanishing on the trace domain,
and the exact quotient by the vanishing polynomial `X^(2^k) - 1`. -/

/-- The polynomial behind each window variable: column interpolant for the
current row, the interpolant composed with `ω·X` for the next row. -/
noncomputable def envPOf (air : Air) (trace : List (List F)) (k : ℕ) (v : ℕ) :
    Polynomial F :=
  if v < air.width then toPoly ((tpolysOf air trace k).getD v [])
  else (toPoly ((tpolysOf air trace k).getD (v - air.width) [])).comp
    (Polynomial.C (root2 k) * Polynomial.X)

/-- The selector-scaled, challenge-combined constraint polynomial. -/
noncomputable def CpOf (air : Air) (trace : List (List F)) (k : ℕ) (α : F) :
    Polynomial F :=
  (Polynomial.X - Polynomial.C (omegaLastOf k)) *
    combineWith (Polynomial.C α)
      (air.constraints.map (Expr.evalWith Polynomial.C (envPOf air trace k)))

/-- The vanishing polynomial of the trace domain. -/
noncomputable def ZHpolyOf (k : ℕ) : Polynomial F :=
  Polynomial.X ^ 2 ^ k - 1

/-- The exact quotient polynomial. -/
noncomputable def qpOf (air : Air) (trace : List (List F)) (k : ℕ) (α : F) :
    Polynomial F :=
  CpOf air trace k α /ₘ ZHpolyOf k

theorem monic_eq_of_dvd_of_natDegree_le (P Q : Polynomial F) (hP : P.Monic)
    (hQ : Q.Monic) (hdvd : P ∣ Q) (hdeg : Q.natDegree ≤ P.natDegree) : P = Q := by
  obtain ⟨c, rfl⟩ := hdvd
  have hc0 : c ≠ 0 := by
    intro h
    rw [h, mul_zero] at hQ
    exact hQ.ne_zero rfl
  have hdc : (P * c).natDegree = P.natDegree + c.natDegree :=
    Polynomial.natDegree_mul hP.ne_zero hc0
  have hc : c.natDegree = 0 := by omega
  obtain ⟨a, rfl⟩ := Polynomial.natDegree_eq_zero.mp hc
  have hl := hQ.leadingCoeff
  rw [Polynomial.leadingCoeff_mul, hP.leadingCoeff, one_mul,
    Polynomial.leadingCoeff_C] at hl
  rw [hl, map_one, mul_one]

theorem two_pow_le_64 (k : ℕ) (hk : k ≤ 32) : (2 : ℕ) ^ k < 2 ^ 64 :=
  lt_of_le_of_lt (Nat.pow_le_pow_right (by norm_num) hk) (by norm_num)

theorem omegaLastOf_eq (k : ℕ) (hk : k ≤ 32) :
    omegaLastOf k = root2 k ^ (2 ^ k - 1) := by
  rw [omegaLastOf]
  exact powF_correct _ _ (by have := two_pow_le_64 k hk; omega)

theorem evalZH_eq (k : ℕ) (hk : k ≤ 32) (x : F) :
    evalZH k x = x ^ 2 ^ k - 1 := by
  rw [evalZH, powF_correct _ _ (two_pow_le_64 k hk)]

theorem ZHpolyOf_monic (k : ℕ) : (ZHpolyOf k).Monic := by
  rw [ZHpolyOf, ← Polynomial.C_1]
  exact Polynomial.monic_X_pow_sub_C 1 (by positivity)

theorem ZHpolyOf_natDegree (k : ℕ) : (ZHpolyOf k).natDegree = 2 ^ k := by
  rw [ZHpolyOf, ← Polynomial.C_1]
  exact Polynomial.natDegree_X_pow_sub_C

section CompletenessPoly

attribute [local irreducible] invF powF powFAux

theorem envPOf_natDegree_le (air : Air) (trace : List (List F)) (k v : ℕ) :
    (envPOf air trace k v).natDegree ≤ 2 ^ k - 1 := by
  rw [envPOf]
  by_cases hv : v < air.width
  · rw [if_pos hv]
    have := natDegree_toPoly_lt ((tpolysOf air trace k).getD v []) (2 ^ k)
      (tpolysOf_getD_len_le air trace k v) (by positivity)
    omega
  · rw [if_neg hv]
    refine le_trans Polynomial.natDegree_comp_le ?_
    have hq : (Polynomial.C (root2 k) * Polynomial.X).natDegree ≤ 1 :=
      le_trans (Polynomial.natDegree_C_mul_le _ _) (le_of_eq Polynomial.natDegree_X)
    have hp := natDegree_toPoly_lt ((tpolysOf air trace k).getD (v - air.width) [])
      (2 ^ k) (tpolysOf_getD_len_le air trace k _) (by positivity)
    calc (toPoly ((tpolysOf air trace k).getD (v - air.width) [])).natDegree *
          (Polynomial.C (root2 k) * Polynomial.X).natDegree
        ≤ (2 ^ k - 1) * 1 := Nat.mul_le_mul (by omega) hq
      _ = 2 ^ k - 1 := mul_one _

theorem CpOf_natDegree_le (air : Air) (trace : List (List F)) (k : ℕ) (α : F)
    (hdeg2 : ∀ e ∈ air.constraints, e.deg ≤ 2) :
    (CpOf air trace k α).natDegree ≤ 2 ^ (k + 1) - 1 := by
  rw [CpOf]
  refine le_trans Polynomial.natDegree_mul_le ?_
  have h1 : (Polynomial.X - Polynomial.C (omegaLastOf k)).natDegree ≤ 1 :=
    le_of_eq (Polynomial.natDegree_X_sub_C _)
  have h2 : (combineWith (Polynomial.C α)
      (air.constraints.map (Expr.evalWith Polynomial.C (envPOf air trace k)))).natDegree ≤
      2 * (2 ^ k - 1) := by
    apply natDegree_combineWith_le
    intro p hp
    obtain ⟨e, he, rfl⟩ := List.mem_map.mp hp
    refine le_trans (Expr.natDegree_evalWith_le (envPOf air trace k) (2 ^ k - 1)
      (envPOf_natDegree_le air trace k) e) ?_
    exact Nat.mul_le_mul_right _ (hdeg2 e he)
  have hp1 : (1 : ℕ) ≤ 2 ^ k := Nat.one_le_two_pow
  have hp2 : (2 : ℕ) ^ (k + 1) = 2 * 2 ^ k := by rw [pow_succ]; ring
  omega

theorem CpOf_eval_ext (air : Air) (trace : List (List F)) (k : ℕ) (α : F)
    (j : ℕ) (hk32 : k + 1 ≤ 32) (hj : j < 2 ^ (k + 1)) :
    (CpOf air trace k α).eval ((extPtsOf k).getD j 0) =
      constraintVal air α (omegaLastOf k) (traceExtOf air trace k)
        (2 ^ (k + 1)) j ((extPtsOf k).getD j 0) := by
  have hj2 : (j + 2) % 2 ^ (k + 1) < 2 ^ (k + 1) :=
    Nat.mod_lt _ (by positivity)
  rw [CpOf, constraintVal, Polynomial.eval_mul, Polynomial.eval_sub,
    Polynomial.eval_X, Polynomial.eval_C]
  congr 1
  have hhom := combineWith_hom (Polynomial.evalRingHom ((extPtsOf k).getD j 0))
    (Polynomial.C α)
    (air.constraints.map (Expr.evalWith Polynomial.C (envPOf air trace k)))
  simp only [Polynomial.coe_evalRingHom, Polynomial.eval_C] at hhom
  rw [hhom, List.map_map]
  congr 1
  apply List.map_congr_left
  intro e he
  have h1 := Expr.evalWith_hom (Polynomial.evalRingHom ((extPtsOf k).getD j 0))
    Polynomial.C (envPOf air trace k) e
  simp only [Polynomial.coe_evalRingHom, Polynomial.eval_C] at h1
  rw [Function.comp_apply, h1, Expr.evalF]
  apply Expr.evalWith_congr
  · intro c
    rfl
  · intro v
    rw [envPOf]
    by_cases hv : v < air.width
    · rw [if_pos hv, if_pos hv, evalPoly_toPoly, traceExtOf_entry air trace k j v hj]
    · rw [if_neg hv, if_neg hv, Polynomial.eval_comp, Polynomial.eval_mul,
        Polynomial.eval_C, Polynomial.eval_X, evalPoly_toPoly,
        traceExtOf_entry air trace k _ _ hj2]
      congr 1
      rw [extPtsOf_getD k j hj, extPtsOf_getD k _ hj2]
      exact (ext_point_shift k j hk32).symm

theorem CpOf_eval_base (air : Air) (trace : List (List F)) (k : ℕ) (α : F)
    (i : ℕ) (hk : k ≤ 32) (hlen : trace.length = 2 ^ k)
    (hw : ∀ r ∈ trace, r.length = air.width) (hvalid : validTrace air trace)
    (hi : i < 2 ^ k) :
    (CpOf air trace k α).eval (root2 k ^ i) = 0 := by
  rw [CpOf, Polynomial.eval_mul]
  by_cases hlast : i = 2 ^ k - 1
  · rw [Polynomial.eval_sub, Polynomial.eval_X, Polynomial.eval_C,
      omegaLastOf_eq k hk, hlast, sub_self, zero_mul]
  · have hi1 : i + 1 < 2 ^ k := by omega
    have hz : Polynomial.eval (root2 k ^ i) (combineWith (Polynomial.C α)
        (air.constraints.map (Expr.evalWith Polynomial.C (envPOf air trace k)))) = 0 := by
      have hhom := combineWith_hom (Polynomial.evalRingHom (root2 k ^ i))
        (Polynomial.C α)
        (air.constraints.map (Expr.evalWith Polynomial.C (envPOf air trace k)))
      simp only [Polynomial.coe_evalRingHom, Polynomial.eval_C] at hhom
      rw [hhom, List.map_map]
      apply combineWith_eq_zero
      intro val hval
      obtain ⟨e, he, rfl⟩ := List.mem_map.mp hval
      have h1 := Expr.evalWith_hom (Polynomial.evalRingHom (root2 k ^ i))
        Polynomial.C (envPOf air trace k) e
      simp only [Polynomial.coe_evalRingHom, Polynomial.eval_C] at h1
      rw [Function.comp_apply, h1]
      have hgetrow : trace.getD (i + 1) [] ∈ trace := by
        rw [List.getD_eq_getElem trace [] (by rw [hlen]; exact hi1)]
        exact List.getElem_mem _
      have henv : ∀ v, Polynomial.eval (root2 k ^ i) (envPOf air trace k v) =
          if v < air.width then (trace.getD i []).getD v 0
            else (trace.getD (i + 1) []).getD (v - air.width) 0 := by
        intro v
        rw [envPOf]
        by_cases hv : v < air.width
        · rw [if_pos hv, if_pos hv, evalPoly_toPoly, tpolysOf_getD air trace k v hv]
          have hnode := evalPoly_lagrangeInterp_node (basePtsOf k)
            (trace.map fun r => r.getD v 0) (basePtsOf_nodup k hk) i
            (by rw [basePtsOf_length]; exact hi)
          rw [basePtsOf_getD k i hi] at hnode
          rw [hnode, getD_map _ _ i (by rw [hlen]; exact hi) [] 0]
        · rw [if_neg hv, if_neg hv, Polynomial.eval_comp, Polynomial.eval_mul,
            Polynomial.eval_C, Polynomial.eval_X, evalPoly_toPoly]
          rcases Nat.lt_or_ge (v - air.width) air.width with hv2 | hv2
          · rw [tpolysOf_getD air trace k _ hv2]
            have hnode := evalPoly_lagrangeInterp_node (basePtsOf k)
              (trace.map fun r => r.getD (v - air.width) 0) (basePtsOf_nodup k hk)
              (i + 1) (by rw [basePtsOf_length]; exact hi1)
            rw [basePtsOf_getD k (i + 1) hi1] at hnode
            rw [show root2 k * root2 k ^ i = root2 k ^ (i + 1) from by
              rw [pow_succ]; ring]
            rw [hnode, getD_map _ _ (i + 1) (by rw [hlen]; exact hi1) [] 0]
          · rw [tpolysOf_getD_default air trace k _ hv2]
            have hrow : (trace.getD (i + 1) []).getD (v - air.width) 0 = 0 :=
              List.getD_eq_default _ _ (by rw [hw _ hgetrow]; exact hv2)
            rw [hrow]
            rfl
      have hcongr := Expr.evalWith_congr
        (fun c : F => c) (id : F → F)
        (fun v => Polynomial.eval (root2 k ^ i) (envPOf air trace k v))
        (fun v => if v < air.width then (trace.getD i []).getD v 0
          else (trace.getD (i + 1) []).getD (v - air.width) 0)
        (fun _ => rfl) henv e
      rw [hcongr]
      exact hvalid i (by rw [hlen]; exact hi1) e he
    rw [hz, mul_zero]

theorem prod_linear_eq_ZHpoly (k : ℕ) (hk : k ≤ 32) :
    ∏ i : Fin (2 ^ k), (Polynomial.X - Polynomial.C (root2 k ^ (i : ℕ))) =
      ZHpolyOf k := by
  have hinj : Function.Injective fun i : Fin (2 ^ k) => root2 k ^ (i : ℕ) := by
    intro a b hab
    exact Fin.ext (root2_pow_injOn k hk a b a.isLt b.isLt hab)
  have hcop := (Polynomial.pairwise_coprime_X_sub_C hinj).set_pairwise
    (↑(Finset.univ : Finset (Fin (2 ^ k))))
  have hmon : (∏ i : Fin (2 ^ k),
      (Polynomial.X - Polynomial.C (root2 k ^ (i : ℕ)))).Monic :=
    Polynomial.monic_prod_of_monic _ _ fun i _ => Polynomial.monic_X_sub_C _
  have hdegP : (∏ i : Fin (2 ^ k),
      (Polynomial.X - Polynomial.C (root2 k ^ (i : ℕ)))).natDegree = 2 ^ k := by
    rw [Polynomial.natDegree_prod _ _ fun i _ => (Polynomial.monic_X_sub_C _).ne_zero]
    trans ∑ _i : Fin (2 ^ k), 1
    · exact Finset.sum_congr rfl fun i _ => Polynomial.natDegree_X_sub_C _
    · simp
  apply monic_eq_of_dvd_of_natDegree_le _ _ hmon (ZHpolyOf_monic k)
  · apply Finset.prod_dvd_of_coprime hcop
    intro i _
    rw [Polynomial.dvd_iff_isRoot]
    show Polynomial.eval _ (ZHpolyOf k) = 0
    rw [ZHpolyOf, Polynomial.eval_sub, Polynomial.eval_pow, Polynomial.eval_X,
      Polynomial.eval_one, ← pow_mul, mul_comm (i : ℕ) (2 ^ k), pow_mul,
      root2_pow_two_pow k hk, one_pow, sub_self]
  · rw [hdegP, ZHpolyOf_natDegree]

theorem ZHpolyOf_dvd_CpOf (air : Air) (trace : List (List F)) (k : ℕ) (α : F)
    (hk : k ≤ 32) (hlen : trace.length = 2 ^ k)
    (hw : ∀ r ∈ trace, r.length = air.width) (hvalid : validTrace air trace) :
    ZHpolyOf k ∣ CpOf air trace k α := by
  have hinj : Function.Injective fun i : Fin (2 ^ k) => root2 k ^ (i : ℕ) := by
    intro a b hab
    exact Fin.ext (root2_pow_injOn k hk a b a.isLt b.isLt hab)
  have hcop := (Polynomial.pairwise_coprime_X_sub_C hinj).set_pairwise
    (↑(Finset.univ : Finset (Fin (2 ^ k))))
  rw [← prod_linear_eq_ZHpoly k hk]
  apply Finset.prod_dvd_of_coprime hcop
  intro i _
  rw [Polynomial.dvd_iff_isRoot]
  exact CpOf_eval_base air trace k α i hk hlen hw hvalid i.isLt

theorem CpOf_eq_ZH_mul (air : Air) (trace : List (List F)) (k : ℕ) (α : F)
    (hk : k ≤ 32) (hlen : trace.length = 2 ^ k)
    (hw : ∀ r ∈ trace, r.length = air.width) (hvalid : validTrace air trace) :
    CpOf air trace k α = ZHpolyOf k * qpOf air trace k α := by
  have h := Polynomial.modByMonic_add_div (CpOf air trace k α) (ZHpolyOf_monic k)
  rw [(Polynomial.modByMonic_eq_zero_iff_dvd (ZHpolyOf_monic k)).mpr
    (ZHpolyOf_dvd_CpOf air trace k α hk hlen hw hvalid), zero_add] at h
  exact h.symm

theorem qpOf_natDegree_lt (air : Air) (trace : List (List F)) (k : ℕ) (α : F)
    (hdeg2 : ∀ e ∈ air.constraints, e.deg ≤ 2) :
    (qpOf air trace k α).natDegree < 2 ^ (k + 1) := by
  rw [qpOf, Polynomial.natDegree_divByMonic _ (ZHpolyOf_monic k)]
  have h1 := CpOf_natDegree_le air trace k α hdeg2
  have hp : (1 : ℕ) ≤ 2 ^ (k + 1) := Nat.one_le_two_pow
  omega

theorem qvecOf_eval (perm : Permutation) (pubs : List F) (air : Air)
    (trace : List (List F)) (k : ℕ) (hk32 : k + 1 ≤ 32)
    (hlen : trace.length = 2 ^ k) (hw : ∀ r ∈ trace, r.length = air.width)
    (hvalid : validTrace air trace) (j : ℕ) (hj : j < 2 ^ (k + 1)) :
    (qvecOf perm pubs air trace k).getD j 0 =
      (qpOf air trace k (alphaOf perm pubs air trace k)).eval
        ((extPtsOf k).getD j 0) := by
  have hk : k ≤ 32 := by omega
  rw [qvecOf_getD perm pubs air trace k j hj, cvecOf_getD perm pubs air trace k j hj,
    ← CpOf_eval_ext air trace k _ j hk32 hj, evalZH_eq k hk]
  have hZne : (extPtsOf k).getD j 0 ^ 2 ^ k - 1 ≠ 0 := by
    rw [extPtsOf_getD k j hj]
    exact sub_ne_zero_of_ne (coset_pow_ne_one (k + 1) k j hk32)
  rw [CpOf_eq_ZH_mul air trace k _ hk hlen hw hvalid, Polynomial.eval_mul]
  have hZH : (ZHpolyOf k).eval ((extPtsOf k).getD j 0) =
      (extPtsOf k).getD j 0 ^ 2 ^ k - 1 := by
    rw [ZHpolyOf, Polynomial.eval_sub, Polynomial.eval_pow, Polynomial.eval_X,
      Polynomial.eval_one]
  rw [hZH, mul_comm ((extPtsOf k).getD j 0 ^ 2 ^ k - 1) _, mul_assoc,
    invF_mul_self _ hZne, mul_one]

theorem toPoly_qinterp (perm : Permutation) (pubs : List F) (air : Air)
    (trace : List (List F)) (k : ℕ) (hk32 : k + 1 ≤ 32)
    (hlen : trace.length = 2 ^ k) (hw : ∀ r ∈ trace, r.length = air.width)
    (hvalid : validTrace air trace) (hdeg2 : ∀ e ∈ air.constraints, e.deg ≤ 2) :
    toPoly (lagrangeInterp (extPtsOf k) (qvecOf perm pubs air trace k)) =
      qpOf air trace k (alphaOf perm pubs air trace k) := by
  apply toPoly_lagrangeInterp_eq _ _ (extPtsOf_nodup k hk32) _
    (by rw [extPtsOf_length]; exact qpOf_natDegree_lt air trace k _ hdeg2)
  intro i hi
  rw [extPtsOf_length] at hi
  exact (qvecOf_eval perm pubs air trace k hk32 hlen hw hvalid i hi).symm

theorem ood_identity_gen (perm : Permutation) (pubs : List F) (air : Air)
    (trace : List (List F)) (k : ℕ) (hk32 : k + 1 ≤ 32)
    (hlen : trace.length = 2 ^ k) (hw : ∀ r ∈ trace, r.length = air.width)
    (hvalid : validTrace air trace) (hdeg2 : ∀ e ∈ air.constraints, e.deg ≤ 2)
    (z : Fext) :
    (z - FextOfF (omegaLastOf k)) *
      combineWith (FextOfF (alphaOf perm pubs air trace k))
        (air.constraints.map (Expr.evalWith FextOfF fun v =>
          if v < air.width then
            ((tpolysOf air trace k).map fun p => evalPolyExt p z).getD v 0
          else
            ((tpolysOf air trace k).map fun p =>
              evalPolyExt p (FextOfF (root2 k) * z)).getD (v - air.width) 0)) =
      evalPolyExt (lagrangeInterp (extPtsOf k) (qvecOf perm pubs air trace k)) z *
        (extPowTwoPow z k - 1) := by
  have hk : k ≤ 32 := by omega
  trans (Polynomial.eval₂RingHom FextOfF z)
    (CpOf air trace k (alphaOf perm pubs air trace k))
  · rw [CpOf, map_mul]
    congr 1
    · rw [map_sub]
      simp only [Polynomial.coe_eval₂RingHom, Polynomial.eval₂_X, Polynomial.eval₂_C]
    · rw [combineWith_hom (Polynomial.eval₂RingHom FextOfF z), List.map_map]
      simp only [Polynomial.coe_eval₂RingHom, Polynomial.eval₂_C]
      congr 1
      apply List.map_congr_left
      intro e he
      have h1 := Expr.evalWith_hom (Polynomial.eval₂RingHom FextOfF z)
        Polynomial.C (envPOf air trace k) e
      simp only [Polynomial.coe_eval₂RingHom, Polynomial.eval₂_C] at h1
      rw [Function.comp_apply, h1]
      apply Expr.evalWith_congr
      · intro c
        rfl
      · intro v
        rw [envPOf]
        by_cases hv : v < air.width
        · rw [if_pos hv, if_pos hv,
            getD_map _ _ v (by rw [tpolysOf_length]; exact hv) [] 0,
            evalPolyExt_eq_eval₂]
        · rw [if_neg hv, if_neg hv, Polynomial.eval₂_comp, Polynomial.eval₂_mul,
            Polynomial.eval₂_C, Polynomial.eval₂_X]
          rcases Nat.lt_or_ge (v - air.width) air.width with hv2 | hv2
          · rw [getD_map _ _ _ (by rw [tpolysOf_length]; exact hv2) [] 0,
              evalPolyExt_eq_eval₂]
          · rw [tpolysOf_getD_default air trace k _ hv2,
              List.getD_eq_default _ _ (by rw [List.length_map, tpolysOf_length]; exact hv2)]
            rw [show toPoly ([] : List F) = 0 from rfl, Polynomial.eval₂_zero]
  · rw [evalPolyExt_eq_eval₂,
      toPoly_qinterp perm pubs air trace k hk32 hlen hw hvalid hdeg2,
      CpOf_eq_ZH_mul air trace k _ hk hlen hw hvalid, map_mul]
    have hZ : (Polynomial.eval₂RingHom FextOfF z) (ZHpolyOf k) =
        extPowTwoPow z k - 1 := by
      rw [ZHpolyOf, map_sub, map_one, map_pow, extPowTwoPow_correct]
      simp only [Polynomial.coe_eval₂RingHom, Polynomial.eval₂_X]
    rw [hZ]
    show _ = Polynomial.eval₂ FextOfF z _ * _
    rw [mul_comm]
    rfl

end CompletenessPoly

/-! ## Completeness (C1): query-phase facts -/

theorem commitPhase_rounds_length (perm : Permutation) :
    ∀ (r d : ℕ) (v pts : List F) (ch : DuplexChallenger),
      (commitPhase perm r d v pts ch).1.length = r := by
  intro r
  induction r with
  | zero => intro d v pts ch; rfl
  | succ r ih =>
    intro d v pts ch
    show (_ :: (commitPhase perm r (d - 1) _ _ _).1).length = r + 1
    rw [List.length_cons, ih]

theorem list_eq_pair (l : List F) (h : l.length = 2) :
    l = [l.getD 0 0, l.getD 1 0] := by
  match l, h with
  | [a, b], _ => rfl

theorem finalDom_length (k : ℕ) : (domAt (extPtsOf k) k).length = 2 := by
  rw [domAt_length _ (k + 1) (extPtsOf_length k) k (by omega),
    show k + 1 - k = 1 from by omega, pow_one]

theorem finalDom_nodup (k : ℕ) (hk32 : k + 1 ≤ 32) :
    (domAt (extPtsOf k) k).Nodup := by
  have hlen2 := finalDom_length k
  rw [list_eq_pair _ hlen2]
  have hne : (domAt (extPtsOf k) k).getD 0 0 ≠ (domAt (extPtsOf k) k).getD 1 0 := by
    rw [domAt_extPts_getD k k 0 (by omega) (by
        rw [show k + 1 - k = 1 from by omega]; omega),
      domAt_extPts_getD k k 1 (by omega) (by
        rw [show k + 1 - k = 1 from by omega]; omega)]
    rw [pow_zero, mul_one, pow_one, mul_pow]
    intro heq
    have h7 : (7 : F) ^ 2 ^ k ≠ 0 := pow_ne_zero _ (by decide)
    have hw : (1 : F) = root2 (k + 1) ^ 2 ^ k := by
      apply mul_left_cancel₀ h7
      rw [mul_one]
      exact heq
    have hdvd : orderOf (root2 (k + 1)) ∣ 2 ^ k := orderOf_dvd_of_pow_eq_one hw.symm
    rw [orderOf_root2 (k + 1) hk32] at hdvd
    have hle : (2 : ℕ) ^ (k + 1) ≤ 2 ^ k := Nat.le_of_dvd (by positivity) hdvd
    have hps : (2 : ℕ) ^ (k + 1) = 2 * 2 ^ k := by rw [pow_succ]; ring
    have hp0 : (0 : ℕ) < 2 ^ k := by positivity
    omega
  rw [List.nodup_cons]
  constructor
  · intro hmem
    rw [List.mem_singleton] at hmem
    exact hne hmem
  · exact List.nodup_singleton _

set_option maxHeartbeats 2000000 in
/-- Every check of one verifier query passes on the honest prover's opening
data. -/
theorem queryCheck_complete (cfg : FriConfig) (perm : Permutation) (pubs : List F)
    (air : Air) (trace : List (List F)) (k p : ℕ)
    (hcfg : cfg.log_blowup = 1) (hk1 : 1 ≤ k) (hk32 : k + 1 ≤ 32)
    (hp : p < 2 ^ k) :
    queryCheck perm k (betaOf perm pubs air trace k) (traceRootOf perm air trace k) (quotRootOf perm pubs air trace k)
      ((cpOfK cfg perm pubs air trace k).1.map FriRound.root)
      ((cpOfK cfg perm pubs air trace k).1.map FriRound.beta)
      (domsFrom (extPtsOf k) ((k + 1) - cfg.log_blowup))
      (finalPolyOf cfg perm pubs air trace k)
      (domAt (extPtsOf k) ((k + 1) - cfg.log_blowup)) p
      { traceLow := (traceExtOf air trace k).getD p []
        traceLowPath := merklePath perm (k + 1) (traceExtOf air trace k) p
        traceHigh := (traceExtOf air trace k).getD (p + 2 ^ k) []
        traceHighPath := merklePath perm (k + 1) (traceExtOf air trace k) (p + 2 ^ k)
        quotLow := (qRowsOf perm pubs air trace k).getD p []
        quotLowPath := merklePath perm (k + 1) (qRowsOf perm pubs air trace k) p
        quotHigh := (qRowsOf perm pubs air trace k).getD (p + 2 ^ k) []
        quotHighPath := merklePath perm (k + 1) (qRowsOf perm pubs air trace k) (p + 2 ^ k)
        friPairs := friPairsFor perm k (cpOfK cfg perm pubs air trace k).1 0 p } = true := by
  have hp2s : (2 : ℕ) ^ (k + 1) = 2 * 2 ^ k := by rw [pow_succ]; ring
  have hplt : p < 2 ^ (k + 1) := by omega
  have hphlt : p + 2 ^ k < 2 ^ (k + 1) := by omega
  have hpmod : p % 2 ^ k = p := Nat.mod_eq_of_lt hp
  have hk' : (k + 1) - cfg.log_blowup = (k - 1) + 1 := by rw [hcfg]; omega
  have hcp : (cpOfK cfg perm pubs air trace k) = commitPhase perm ((k - 1) + 1) k (combinedOf perm pubs air trace k) (extPtsOf k) (s3Of perm pubs air trace k).2 := by
    rw [cpOfK, hk']
  have hstep : commitPhase perm ((k - 1) + 1) k (combinedOf perm pubs air trace k) (extPtsOf k) (s3Of perm pubs air trace k).2 =
      (FriRound.mk (merkleRoot perm k (pairRowsOf (combinedOf perm pubs air trace k))) (pairRowsOf (combinedOf perm pubs air trace k)) (combinedOf perm pubs air trace k) (extPtsOf k) (sample perm (observeList perm (s3Of perm pubs air trace k).2 (merkleRoot perm k (pairRowsOf (combinedOf perm pubs air trace k))))).1 ::
        (commitPhase perm (k - 1) (k - 1) (foldOnce (sample perm (observeList perm (s3Of perm pubs air trace k).2 (merkleRoot perm k (pairRowsOf (combinedOf perm pubs air trace k))))).1 (combinedOf perm pubs air trace k) (extPtsOf k)) (squareFirstHalf (extPtsOf k)) (sample perm (observeList perm (s3Of perm pubs air trace k).2 (merkleRoot perm k (pairRowsOf (combinedOf perm pubs air trace k))))).2).1, (commitPhase perm (k - 1) (k - 1) (foldOnce (sample perm (observeList perm (s3Of perm pubs air trace k).2 (merkleRoot perm k (pairRowsOf (combinedOf perm pubs air trace k))))).1 (combinedOf perm pubs air trace k) (extPtsOf k)) (squareFirstHalf (extPtsOf k)) (sample perm (observeList perm (s3Of perm pubs air trace k).2 (merkleRoot perm k (pairRowsOf (combinedOf perm pubs air trace k))))).2).2) := rfl
  have hdoms : domsFrom (extPtsOf k) ((k + 1) - cfg.log_blowup) = (extPtsOf k) :: domsFrom (squareFirstHalf (extPtsOf k)) (k - 1) := by
    rw [hk']
    rfl
  have hmv1 : merkleVerify perm (traceRootOf perm air trace k) p ((traceExtOf air trace k).getD p [])
      (merklePath perm (k + 1) (traceExtOf air trace k) p) = true := by
    rw [merkleVerify, decide_eq_true_iff, traceRootOf]
    exact merkle_open_correct perm (k + 1) (traceExtOf air trace k) p (traceExtOf_length air trace k) hplt
  have hmv2 : merkleVerify perm (traceRootOf perm air trace k) (p + 2 ^ k) ((traceExtOf air trace k).getD (p + 2 ^ k) [])
      (merklePath perm (k + 1) (traceExtOf air trace k) (p + 2 ^ k)) = true := by
    rw [merkleVerify, decide_eq_true_iff, traceRootOf]
    exact merkle_open_correct perm (k + 1) (traceExtOf air trace k) (p + 2 ^ k)
      (traceExtOf_length air trace k) hphlt
  have hmv3 : merkleVerify perm (quotRootOf perm pubs air trace k) p ((qRowsOf perm pubs air trace k).getD p [])
      (merklePath perm (k + 1) (qRowsOf perm pubs air trace k) p) = true := by
    rw [merkleVerify, decide_eq_true_iff, quotRootOf]
    exact merkle_open_correct perm (k + 1) (qRowsOf perm pubs air trace k) p
      (qRowsOf_length perm pubs air trace k) hplt
  have hmv4 : merkleVerify perm (quotRootOf perm pubs air trace k) (p + 2 ^ k) ((qRowsOf perm pubs air trace k).getD (p + 2 ^ k) [])
      (merklePath perm (k + 1) (qRowsOf perm pubs air trace k) (p + 2 ^ k)) = true := by
    rw [merkleVerify, decide_eq_true_iff, quotRootOf]
    exact merkle_open_correct perm (k + 1) (qRowsOf perm pubs air trace k) (p + 2 ^ k)
      (qRowsOf_length perm pubs air trace k) hphlt
  have hrows0 : (pairRowsOf (combinedOf perm pubs air trace k)).length = 2 ^ k := by
    rw [pairRowsOf_length, combinedOf_length, hp2s]
    omega
  have hmv0 : merkleVerify perm (merkleRoot perm k (pairRowsOf (combinedOf perm pubs air trace k))) p ((pairRowsOf (combinedOf perm pubs air trace k)).getD p [])
      (merklePath perm k (pairRowsOf (combinedOf perm pubs air trace k)) p) = true := by
    rw [merkleVerify, decide_eq_true_iff]
    exact merkle_open_correct perm k _ p hrows0 hp
  have hpair0 : (pairRowsOf (combinedOf perm pubs air trace k)).getD p [] =
      [(combinedOf perm pubs air trace k).getD p 0, (combinedOf perm pubs air trace k).getD (p + 2 ^ k) 0] :=
    pairRowsOf_getD (combinedOf perm pubs air trace k) (2 ^ k) p (by rw [combinedOf_length]; exact hp2s) hp
  have hcLow : combineWith (betaOf perm pubs air trace k) ((traceExtOf air trace k).getD p [] ++ [((qRowsOf perm pubs air trace k).getD p []).getD 0 0]) =
      (combinedOf perm pubs air trace k).getD p 0 := by
    rw [qRowsOf_getD perm pubs air trace k p hplt,
      combinedOf_getD perm pubs air trace k p hplt]
    rfl
  have hcHigh : combineWith (betaOf perm pubs air trace k)
      ((traceExtOf air trace k).getD (p + 2 ^ k) [] ++ [((qRowsOf perm pubs air trace k).getD (p + 2 ^ k) []).getD 0 0]) =
      (combinedOf perm pubs air trace k).getD (p + 2 ^ k) 0 := by
    rw [qRowsOf_getD perm pubs air trace k _ hphlt,
      combinedOf_getD perm pubs air trace k _ hphlt]
    rfl
  have hbeq : (pairRowsOf (combinedOf perm pubs air trace k)).getD p [] =
      [combineWith (betaOf perm pubs air trace k) ((traceExtOf air trace k).getD p [] ++ [((qRowsOf perm pubs air trace k).getD p []).getD 0 0]),
       combineWith (betaOf perm pubs air trace k)
         ((traceExtOf air trace k).getD (p + 2 ^ k) [] ++ [((qRowsOf perm pubs air trace k).getD (p + 2 ^ k) []).getD 0 0])] := by
    rw [hpair0, hcLow, hcHigh]
  have hfold : foldPair (sample perm (observeList perm (s3Of perm pubs air trace k).2 (merkleRoot perm k (pairRowsOf (combinedOf perm pubs air trace k))))).1 ((extPtsOf k).getD p 0) ((combinedOf perm pubs air trace k).getD p 0)
      ((combinedOf perm pubs air trace k).getD (p + 2 ^ k) 0) = (foldOnce (sample perm (observeList perm (s3Of perm pubs air trace k).2 (merkleRoot perm k (pairRowsOf (combinedOf perm pubs air trace k))))).1 (combinedOf perm pubs air trace k) (extPtsOf k)).getD p 0 := by
    rw [foldOnce_getD (sample perm (observeList perm (s3Of perm pubs air trace k).2 (merkleRoot perm k (pairRowsOf (combinedOf perm pubs air trace k))))).1 (combinedOf perm pubs air trace k) (extPtsOf k) (2 ^ k) p
      (by rw [combinedOf_length]; exact hp2s) (by rw [extPtsOf_length, hp2s]; omega) hp]
  have hv2len : (foldOnce (sample perm (observeList perm (s3Of perm pubs air trace k).2 (merkleRoot perm k (pairRowsOf (combinedOf perm pubs air trace k))))).1 (combinedOf perm pubs air trace k) (extPtsOf k)).length = 2 ^ k := by
    rw [foldOnce_length _ _ _ (by rw [combinedOf_length, extPtsOf_length]; omega),
      combinedOf_length, hp2s]
    omega
  have hpts2len : (squareFirstHalf (extPtsOf k)).length = 2 ^ k := by
    rw [squareFirstHalf_length, extPtsOf_length, hp2s]
    omega
  have hwalk := friCheckAux_complete perm k p (k - 1) 1 (foldOnce (sample perm (observeList perm (s3Of perm pubs air trace k).2 (merkleRoot perm k (pairRowsOf (combinedOf perm pubs air trace k))))).1 (combinedOf perm pubs air trace k) (extPtsOf k)) (squareFirstHalf (extPtsOf k)) (sample perm (observeList perm (s3Of perm pubs air trace k).2 (merkleRoot perm k (pairRowsOf (combinedOf perm pubs air trace k))))).2
    (le_refl 1) (by omega) (by rw [hv2len]; rfl) (by rw [hpts2len]; rfl)
  rw [show p % 2 ^ (k + 1 - 1) = p from by rw [show k + 1 - 1 = k from rfl, hpmod]]
    at hwalk
  rw [show k + 1 - 1 - (k - 1) = 1 from by omega, pow_one] at hwalk
  have hfd : (cpOfK cfg perm pubs air trace k).2.2.1 = domAt (extPtsOf k) ((k + 1) - cfg.log_blowup) := by
    rw [cpOfK]
    exact commitPhase_final_domain perm ((k + 1) - cfg.log_blowup) k (combinedOf perm pubs air trace k) (extPtsOf k) (s3Of perm pubs air trace k).2
  have hfvals : (cpOfK cfg perm pubs air trace k).2.1 = (commitPhase perm (k - 1) (k - 1) (foldOnce (sample perm (observeList perm (s3Of perm pubs air trace k).2 (merkleRoot perm k (pairRowsOf (combinedOf perm pubs air trace k))))).1 (combinedOf perm pubs air trace k) (extPtsOf k)) (squareFirstHalf (extPtsOf k)) (sample perm (observeList perm (s3Of perm pubs air trace k).2 (merkleRoot perm k (pairRowsOf (combinedOf perm pubs air trace k))))).2).2.1 := by rw [hcp, hstep]
  have hfpoly : (finalPolyOf cfg perm pubs air trace k) = lagrangeInterp (domAt (extPtsOf k) ((k + 1) - cfg.log_blowup)) (commitPhase perm (k - 1) (k - 1) (foldOnce (sample perm (observeList perm (s3Of perm pubs air trace k).2 (merkleRoot perm k (pairRowsOf (combinedOf perm pubs air trace k))))).1 (combinedOf perm pubs air trace k) (extPtsOf k)) (squareFirstHalf (extPtsOf k)) (sample perm (observeList perm (s3Of perm pubs air trace k).2 (merkleRoot perm k (pairRowsOf (combinedOf perm pubs air trace k))))).2).2.1 := by
    rw [finalPolyOf, hfd, hfvals]
  have hnodeF : evalPoly (finalPolyOf cfg perm pubs air trace k) ((domAt (extPtsOf k) ((k + 1) - cfg.log_blowup)).getD (p % 2) 0) =
      (commitPhase perm (k - 1) (k - 1) (foldOnce (sample perm (observeList perm (s3Of perm pubs air trace k).2 (merkleRoot perm k (pairRowsOf (combinedOf perm pubs air trace k))))).1 (combinedOf perm pubs air trace k) (extPtsOf k)) (squareFirstHalf (extPtsOf k)) (sample perm (observeList perm (s3Of perm pubs air trace k).2 (merkleRoot perm k (pairRowsOf (combinedOf perm pubs air trace k))))).2).2.1.getD (p % 2) 0 := by
    rw [hfpoly]
    have hnd : (domAt (extPtsOf k) ((k + 1) - cfg.log_blowup)).Nodup := by
      rw [hcfg, show k + 1 - 1 = k from rfl]
      exact finalDom_nodup k hk32
    have hl2 : (domAt (extPtsOf k) ((k + 1) - cfg.log_blowup)).length = 2 := by
      rw [hcfg, show k + 1 - 1 = k from rfl]
      exact finalDom_length k
    exact evalPoly_lagrangeInterp_node _ _ hnd (p % 2)
      (by rw [hl2]; exact Nat.mod_lt p (by omega))
  rw [queryCheck]
  dsimp only []
  rw [hmv1, hmv2, hmv3, hmv4]
  simp only [Bool.true_and]
  rw [hcp, hstep, hdoms]
  simp only [List.map_cons, friPairsFor, Nat.sub_zero]
  rw [hpmod]
  rw [hmv0, decide_eq_true hbeq]
  simp only [Bool.true_and]
  rw [hcLow, hcHigh, hfold, hwalk]
  exact decide_eq_true hnodeF

/-- `verify` succeeds as soon as each of its four checks passes; the
hypotheses are verbatim the conditions `verify` tests, with its transcript
lets expanded. -/
theorem verify_ok_of (cfg : FriConfig) (air : Air) (perm : Permutation)
    (pf : Proof) (pubs : List F)
    (h1 : pf.oodTrace.length = air.width)
    (h2 : pf.oodTraceNext.length = air.width)
    (h3 : pf.friRoots.length = (pf.logDegree + 1 - cfg.log_blowup))
    (h4 : pf.queryOpenings.length = cfg.num_queries)
    (h5 : pf.finalPoly.length ≤ 2 ^ cfg.log_blowup)
    (h6 : 1 ≤ (pf.logDegree + 1 - cfg.log_blowup))
    (hpow : powCheckOk perm (observeList perm (friReplay perm pf.friRoots (challengesPhase3 perm (challengesPhase2 perm (challengesPhase1 perm pubs pf.traceRoot).2 pf.quotRoot).2 (flattenExt pf.oodTrace ++ flattenExt pf.oodTraceNext ++ [pf.oodQuot.a, pf.oodQuot.b])).2).2 pf.finalPoly) cfg.proof_of_work_bits pf.powNonce = true)
    (hood : ((challengesPhase2 perm (challengesPhase1 perm pubs pf.traceRoot).2 pf.quotRoot).1 - FextOfF (powF (root2 pf.logDegree) (2 ^ pf.logDegree - 1))) *
        combineWith (FextOfF (challengesPhase1 perm pubs pf.traceRoot).1)
          (air.constraints.map (Expr.evalWith FextOfF fun v =>
            if v < air.width then pf.oodTrace.getD v 0
            else pf.oodTraceNext.getD (v - air.width) 0)) =
      pf.oodQuot * (extPowTwoPow (challengesPhase2 perm (challengesPhase1 perm pubs pf.traceRoot).2 pf.quotRoot).1 pf.logDegree - 1))
    (hq : (List.zip
        (queryIndices perm
          (sample perm (observe perm (observeList perm (friReplay perm pf.friRoots (challengesPhase3 perm (challengesPhase2 perm (challengesPhase1 perm pubs pf.traceRoot).2 pf.quotRoot).2 (flattenExt pf.oodTrace ++ flattenExt pf.oodTraceNext ++ [pf.oodQuot.a, pf.oodQuot.b])).2).2 pf.finalPoly) ((pf.powNonce : ℕ) : F))).2
          cfg.num_queries (2 ^ pf.logDegree)) pf.queryOpenings).all
        (fun pr => queryCheck perm pf.logDegree (challengesPhase3 perm (challengesPhase2 perm (challengesPhase1 perm pubs pf.traceRoot).2 pf.quotRoot).2 (flattenExt pf.oodTrace ++ flattenExt pf.oodTraceNext ++ [pf.oodQuot.a, pf.oodQuot.b])).1 pf.traceRoot pf.quotRoot
          pf.friRoots (friReplay perm pf.friRoots (challengesPhase3 perm (challengesPhase2 perm (challengesPhase1 perm pubs pf.traceRoot).2 pf.quotRoot).2 (flattenExt pf.oodTrace ++ flattenExt pf.oodTraceNext ++ [pf.oodQuot.a, pf.oodQuot.b])).2).1 (domsFrom (extPtsOf pf.logDegree) (pf.logDegree + 1 - cfg.log_blowup))
          pf.finalPoly (domAt (extPtsOf pf.logDegree) (pf.logDegree + 1 - cfg.log_blowup)) pr.1 pr.2) = true) :
    verify cfg air perm pf pubs = Except.ok () := by
  unfold verify
  simp only []
  split
  · rename_i h
    exact absurd ⟨h1, h2, h3, h4, h5, h6⟩ h
  · rfl

/-- C1.  Completeness of the prove/verify pipeline: for any valid trace
satisfying the AIR's constraints (degree at most 2, matching widths,
power-of-two height in the supported range) and any configuration in the
supported query-count/blowup ranges, whenever the proof-of-work grinding
search succeeds, `prove` returns a proof that `verify` accepts.  The
Fibonacci driver case is this statement at `air := FibonacciAir` with the
driver's row trace; the witness below checks a concrete instance end to end
through the kernel. -/
theorem stark_completeness (cfg : FriConfig) (air : Air) (perm : Permutation)
    (trace : List (List F)) (pubs : List F) (k : ℕ)
    (hcfg : supportedConfig cfg)
    (hlen : trace.length = 2 ^ k) (hk1 : 1 ≤ k) (hk32 : k + 1 ≤ 32)
    (hw : ∀ r ∈ trace, r.length = air.width)
    (hdeg2 : ∀ e ∈ air.constraints, e.deg ≤ 2)
    (hvalid : validTrace air trace)
    (hgrind : (findNonce perm (proverRun cfg air perm trace pubs).chAfterFinal
      cfg.proof_of_work_bits).isSome = true) :
    ∃ pf, prove cfg air perm trace pubs = Except.ok pf ∧
      verify cfg air perm pf pubs = Except.ok () := by
  obtain ⟨hilb, hnq⟩ := hcfg
  have hkk : myLog2 trace.length = k := by
    rw [hlen]
    exact myLog2_pow k (by omega)
  have hshape : traceShapeOk air trace = true := by
    rw [traceShapeOk]
    have c1 : (2 : ℕ) ^ myLog2 trace.length = trace.length := by rw [hkk, hlen]
    have c2 : 2 ≤ trace.length := by
      rw [hlen]
      calc (2 : ℕ) = 2 ^ 1 := rfl
        _ ≤ 2 ^ k := Nat.pow_le_pow_right (by norm_num) hk1
    have c3 : trace.all (fun r => decide (r.length = air.width)) = true := by
      rw [List.all_eq_true]
      intro r hr
      exact decide_eq_true (hw r hr)
    rw [decide_eq_true c1, decide_eq_true c2, c3]
    rfl
  have h0 : (proverRun cfg air perm trace pubs).chAfterFinal = (chAfterFinalOf cfg perm pubs air trace k) := by
    rw [proverRun_eq_components, hkk]
  rw [h0] at hgrind
  obtain ⟨m, hm⟩ := Option.isSome_iff_exists.mp hgrind
  unfold prove
  rw [if_pos hshape]
  refine ⟨_, rfl, ?_⟩
  rw [proverRun_eq_components]
  dsimp only []
  rw [hkk]
  have hF1 : (oodTraceOf perm pubs air trace k).length = air.width := by
    rw [oodTraceOf, List.length_map, tpolysOf_length]
  have hF2 : (oodTraceNextOf perm pubs air trace k).length = air.width := by
    rw [oodTraceNextOf, List.length_map, tpolysOf_length]
  have hF3 : ((cpOfK cfg perm pubs air trace k).1.map FriRound.root).length = k + 1 - cfg.log_blowup := by
    rw [List.length_map, cpOfK, commitPhase_rounds_length]
  have hF4 : ∀ (ch : DuplexChallenger) (f : ℕ → QueryOpening),
      ((queryIndices perm ch cfg.num_queries (2 ^ k)).map f).length =
        cfg.num_queries := by
    intro ch f
    rw [List.length_map, queryIndices_length]
  have hfd : (cpOfK cfg perm pubs air trace k).2.2.1 = domAt (extPtsOf k) ((k + 1) - cfg.log_blowup) := by
    rw [cpOfK]
    exact commitPhase_final_domain perm ((k + 1) - cfg.log_blowup) k (combinedOf perm pubs air trace k)
      (extPtsOf k) (s3Of perm pubs air trace k).2
  have hF5 : (finalPolyOf cfg perm pubs air trace k).length ≤ 2 ^ cfg.log_blowup := by
    rw [finalPolyOf]
    refine le_trans (lagrangeInterp_length _ _) ?_
    rw [hfd, hilb, show k + 1 - 1 = k from rfl, finalDom_length k]
    norm_num
  have hF6 : 1 ≤ k + 1 - cfg.log_blowup := by
    rw [hilb]
    omega
  have hfr : friReplay perm ((cpOfK cfg perm pubs air trace k).1.map FriRound.root) (s3Of perm pubs air trace k).2 =
      ((cpOfK cfg perm pubs air trace k).1.map FriRound.beta, (cpOfK cfg perm pubs air trace k).2.2.2) := by
    rw [cpOfK]
    exact friReplay_commitPhase perm ((k + 1) - cfg.log_blowup) k (combinedOf perm pubs air trace k)
      (extPtsOf k) (s3Of perm pubs air trace k).2
  have hFpow : powCheckOk perm
      (observeList perm (friReplay perm ((cpOfK cfg perm pubs air trace k).1.map FriRound.root) (s3Of perm pubs air trace k).2).2
        (finalPolyOf cfg perm pubs air trace k)) cfg.proof_of_work_bits ((findNonce perm (chAfterFinalOf cfg perm pubs air trace k) cfg.proof_of_work_bits).getD 0) = true := by
    rw [hfr, hm]
    exact findNonce_ok perm (chAfterFinalOf cfg perm pubs air trace k) cfg.proof_of_work_bits m hm
  have hFood := ood_identity_gen perm pubs air trace k hk32 hlen hw hvalid hdeg2
    (zetaOf perm pubs air trace k)
  have hFq : (List.zip
      (queryIndices perm
        (sample perm (observe perm
          (observeList perm
            (friReplay perm ((cpOfK cfg perm pubs air trace k).1.map FriRound.root) (s3Of perm pubs air trace k).2).2 (finalPolyOf cfg perm pubs air trace k))
          ((((findNonce perm (chAfterFinalOf cfg perm pubs air trace k) cfg.proof_of_work_bits).getD 0) : ℕ) : F))).2
        cfg.num_queries (2 ^ k))
      ((queryIndices perm
        (sample perm (observe perm (chAfterFinalOf cfg perm pubs air trace k) ((((findNonce perm (chAfterFinalOf cfg perm pubs air trace k) cfg.proof_of_work_bits).getD 0) : ℕ) : F))).2
        cfg.num_queries (2 ^ k)).map fun p =>
          openingsFor perm
            { k := k
              alpha := alphaOf perm pubs air trace k
              zeta := zetaOf perm pubs air trace k
              beta := betaOf perm pubs air trace k
              traceExt := traceExtOf air trace k
              traceRoot := traceRootOf perm air trace k
              qvec := qvecOf perm pubs air trace k
              qRows := qRowsOf perm pubs air trace k
              quotRoot := quotRootOf perm pubs air trace k
              oodTrace := oodTraceOf perm pubs air trace k
              oodTraceNext := oodTraceNextOf perm pubs air trace k
              oodQuot := oodQuotOf perm pubs air trace k
              combined := combinedOf perm pubs air trace k
              friRounds := (cpOfK cfg perm pubs air trace k).1
              finalCodeword := (cpOfK cfg perm pubs air trace k).2.1
              finalDomain := (cpOfK cfg perm pubs air trace k).2.2.1
              finalPoly := (finalPolyOf cfg perm pubs air trace k)
              chAfterFinal := (chAfterFinalOf cfg perm pubs air trace k) } p)).all
      (fun pr => queryCheck perm k (s3Of perm pubs air trace k).1 (traceRootOf perm air trace k)
        (quotRootOf perm pubs air trace k) ((cpOfK cfg perm pubs air trace k).1.map FriRound.root)
        (friReplay perm ((cpOfK cfg perm pubs air trace k).1.map FriRound.root) (s3Of perm pubs air trace k).2).1
        (domsFrom (extPtsOf k) (k + 1 - cfg.log_blowup)) (finalPolyOf cfg perm pubs air trace k)
        (domAt (extPtsOf k) (k + 1 - cfg.log_blowup)) pr.1 pr.2) = true := by
    rw [hfr, chAfterFinalOf]
    dsimp only []
    rw [zip_map_all, List.all_eq_true]
    intro p hp
    have hplt : p < 2 ^ k :=
      queryIndices_lt perm _ cfg.num_queries (2 ^ k) (by positivity) p hp
    exact queryCheck_complete cfg perm pubs air trace k p hilb hk1 hk32 hplt
  exact verify_ok_of cfg air perm _ pubs hF1 hF2 hF3 (hF4 _ _) hF5 hF6 hFpow
    hFood hFq

theorem stark_completeness_witness :
    ∃ pf, prove tinyCfg FibonacciAir demoPerm tinyTrace [] = Except.ok pf ∧
      verify tinyCfg FibonacciAir demoPerm pf [] = Except.ok () :=
  stark_completeness tinyCfg FibonacciAir demoPerm tinyTrace [] 1
    ⟨rfl, by decide⟩ rfl (by decide) (by decide) (by decide) (by decide)
    (by
      intro i hi e he
      have h2 : tinyTrace.length = 2 := rfl
      rw [h2] at hi
      have hi0 : i = 0 := by omega
      subst hi0
      fin_cases he <;> decide)
    (by decide)
